import Mathlib

/-!
# stref: a non-owning string reference (`tools::basic_stref<TT>`, `stref.h`)

Shallow embedding of the view type of `stref.h`.

* A view is the pair `(ref, len)` of the source: `ref` is an address, `len` a `size_t`.
* Memory is a total map from addresses to character values (`chT` values, as integers).
* `size_t` is 64 bits wide and unsigned, `int` is 32 bits wide and signed. Conversions between
  the two are written out (`to_int`, `to_size`); `size_t` arithmetic is taken modulo `2^64`.
* The difference of two characters is computed after integral promotion and is exact.
* The `int` expressions `pos - 1` and `pos + 1` of `split` are reduced to 32-bit two's
  complement.
* Loops over a `size_t` counter are written by recursion on the number of iterations left;
  `split`, whose loop has no such bound, takes fuel.
* A method that throws returns `Except bad_stref_op`.
* Callbacks (`body`) are modelled by the list of the arguments they receive, in call order.
-/

namespace tools

/-- The memory the views borrow from: the character stored at each address. -/
abbrev Mem := Int → Int

/-- Conversion of an integer value to `int`: reduction to 32-bit two's complement. -/
def to_int (x : Int) : Int := (x + 2 ^ 31) % 2 ^ 32 - 2 ^ 31

/-- Conversion of an integer value to `size_t`: reduction modulo `2^64`. -/
def to_size (x : Int) : Nat := (x % 2 ^ 64).toNat

/-- Subtraction of two `size_t` values (both below `2^64`): modulo `2^64`. -/
def size_sub (x y : Nat) : Nat := (x + 2 ^ 64 - y) % 2 ^ 64

/-- The members of `basic_stref`: `ref` (original string data) and `len` (string length). -/
structure stref where
  ref : Int
  len : Nat
deriving DecidableEq

/-- The policy class `TT`: `to_lower_case` and `is_whitespace` over the character kind. -/
structure traits where
  to_lower_case : Int → Int
  is_whitespace : Int → Bool

/-- The sentinel `enum { npos = -1 }`. -/
def npos : Int := -1

/-- The character of the view at position `i`, for `i < len`: `data()[i]`. -/
def stref.nth (mem : Mem) (s : stref) (i : Nat) : Int := mem (s.ref + i)

/-- The character sequence of the view: `data()[0 .. length())`. -/
def stref.chars (mem : Mem) (s : stref) : List Int :=
  (List.range s.len).map (fun i => s.nth mem i)

/-- Unchecked access `chT _at(int index) const { return ref[index]; }`. -/
def _at (mem : Mem) (s : stref) (index : Int) : Int := mem (s.ref + index)

/-- The loop of `compare`, with `n` iterations left and loop variable `i` (a `size_t`, passed to
`_at(int)`), followed by the final `return`. -/
def compare_loop (mem : Mem) (a b : stref) : Nat → Nat → Int
  | 0, _ => if a.len = b.len then 0 else to_int (size_sub a.len b.len)
  | n + 1, i =>
    if _at mem a (to_int i) ≠ _at mem b (to_int i) then
      _at mem a (to_int i) - _at mem b (to_int i)
    else compare_loop mem a b n (i + 1)

/-- The method `int compare(const bstref& rhs) const`. -/
def compare (mem : Mem) (a b : stref) : Int :=
  compare_loop mem a b (min a.len b.len) 0

/-- The method `operator==`. -/
def op_eq (mem : Mem) (a b : stref) : Bool :=
  if a.len ≠ b.len then false
  else if a.ref = b.ref then true
  else compare mem a b == 0

/-- The method `operator!=`. -/
def op_ne (mem : Mem) (a b : stref) : Bool :=
  if a.len ≠ b.len then true
  else if a.ref = b.ref then false
  else compare mem a b != 0

/-- The method `operator<`. -/
def op_lt (mem : Mem) (a b : stref) : Bool :=
  if a.ref = b.ref ∧ a.len < b.len then true
  else decide (compare mem a b < 0)

/-- The method `operator<=`. -/
def op_le (mem : Mem) (a b : stref) : Bool :=
  if a.ref = b.ref ∧ a.len ≤ b.len then true
  else decide (compare mem a b ≤ 0)

/-- The method `operator>`. -/
def op_gt (mem : Mem) (a b : stref) : Bool :=
  if a.ref = b.ref ∧ b.len > a.len then true
  else decide (compare mem a b > 0)

/-- The method `operator>=`. -/
def op_ge (mem : Mem) (a b : stref) : Bool :=
  if a.ref = b.ref ∧ b.len ≥ a.len then true
  else decide (compare mem a b ≥ 0)

/-- The loop of `icompare`, with `n` iterations left and loop variable `i`, followed by the final
`return`. -/
def icompare_loop (tt : traits) (mem : Mem) (a b : stref) : Nat → Nat → Int
  | 0, _ => if a.len = b.len then 0 else to_int (size_sub a.len b.len)
  | n + 1, i =>
    let c1 := tt.to_lower_case (_at mem a (to_int i))
    let c2 := tt.to_lower_case (_at mem b (to_int i))
    if c1 ≠ c2 then c1 - c2 else icompare_loop tt mem a b n (i + 1)

/-- The method `int icompare(const bstref& rhs) const`. -/
def icompare (tt : traits) (mem : Mem) (a b : stref) : Int :=
  icompare_loop tt mem a b (min a.len b.len) 0

/-- The method `iequals`. -/
def iequals (tt : traits) (mem : Mem) (a b : stref) : Bool :=
  if a.len ≠ b.len then false
  else if a.ref = b.ref then true
  else icompare tt mem a b == 0

/-- The method `iless_than`. -/
def iless_than (tt : traits) (mem : Mem) (a b : stref) : Bool :=
  if a.ref = b.ref ∧ a.len < b.len then true
  else decide (icompare tt mem a b < 0)

/-- The method `igreater_than`. -/
def igreater_than (tt : traits) (mem : Mem) (a b : stref) : Bool :=
  if a.ref = b.ref ∧ b.len > a.len then true
  else decide (icompare tt mem a b > 0)

/-- The method `igreater_than_eq`. -/
def igreater_than_eq (tt : traits) (mem : Mem) (a b : stref) : Bool :=
  if a.ref = b.ref ∧ b.len ≥ a.len then true
  else decide (icompare tt mem a b ≥ 0)

/-- The method `substr(size_t offset)`. -/
def substr_from (s : stref) (offset : Nat) : stref :=
  if offset ≥ s.len then ⟨s.ref, 0⟩
  else ⟨s.ref + offset, s.len - offset⟩

/-- The method `middle(size_t from, size_t to)`. -/
def middle (s : stref) (from_ to_ : Nat) : stref :=
  let to_ := if to_ ≥ s.len then size_sub s.len 1 else to_
  if from_ > to_ then ⟨s.ref, 0⟩
  else ⟨s.ref + from_, (to_ - from_ + 1) % 2 ^ 64⟩

/-- The loop of `find`, with `n` iterations left and loop variable `i` (a `size_t`, passed to
`_at(int)` and returned as `int`), followed by `return npos`. -/
def find_loop (mem : Mem) (match_ : Int → Bool) (s : stref) : Nat → Nat → Int
  | 0, _ => npos
  | n + 1, i =>
    if match_ (_at mem s (to_int i)) then to_int i
    else find_loop mem match_ s n (i + 1)

/-- The method `int find(std::function< bool(chT) > match, int start) const`. -/
def find (mem : Mem) (match_ : Int → Bool) (s : stref) (start : Int) : Int :=
  find_loop mem match_ s (s.len - to_size start) (to_size start)

/-- The loop of `split` and the final call of `body`: the views passed to `body`, in call order.
The loop is run for at most `fuel` tests of its condition; `none` when that does not suffice.
`start` and `pos` are `int`s; `pos - 1` and `pos + 1` are reduced to `int`. -/
def split_loop (mem : Mem) (match_ : Int → Bool) (s : stref) : Nat → Int → Int → Option (List stref)
  | 0, _, _ => none
  | fuel + 1, start, pos =>
    if pos ≠ npos then
      let seg := middle s (to_size start) (to_size (to_int (pos - 1)))
      let start := to_int (pos + 1)
      (split_loop mem match_ s fuel start (find mem match_ s start)).map (fun rest => seg :: rest)
    else some [substr_from s (to_size start)]

/-- The method `split(match, body)`: the views passed to `body`, in call order. -/
def split (mem : Mem) (match_ : Int → Bool) (s : stref) (fuel : Nat) : Option (List stref) :=
  split_loop mem match_ s fuel 0 (find mem match_ s 0)

/-- The functor `chmatch(ch)`: equality with `ch`. -/
def chmatch (ch : Int) : Int → Bool := fun c => c == ch

/-- The memory holding the characters `l` from address `0` on, and `0` everywhere else. -/
def mem_of (l : List Int) : Mem := fun p => if 0 ≤ p then l.getD p.toNat 0 else 0

/-- The function `std::tolower` on the characters of the "C" locale. -/
def c_tolower (c : Int) : Int := if 65 ≤ c ∧ c ≤ 90 then c + 32 else c

/-- The function `std::isspace` on the characters of the "C" locale. -/
def c_isspace (c : Int) : Bool := c == 32 || (9 ≤ c && c ≤ 13)

/-- The policy `char_traits`. -/
def char_traits : traits := ⟨c_tolower, c_isspace⟩

/-- The local exception class `bad_stref_op`, with the message it is thrown with. -/
structure bad_stref_op where
  msg : String
deriving DecidableEq

/-- Unchecked access `chT _front() const { return ref[0]; }`. -/
def _front (mem : Mem) (s : stref) : Int := mem (s.ref + 0)

/-- Unchecked access `chT _back() const { return ref[length() - 1]; }`; its callers have checked
`length() > 0`, so the `size_t` subtraction does not wrap. -/
def _back (mem : Mem) (s : stref) : Int := mem (s.ref + ((s.len - 1 : Nat) : Int))

/-- The method `front()`: throws on the empty view, otherwise returns `_front()`. -/
def front (mem : Mem) (s : stref) : Except bad_stref_op Int :=
  if s.len = 0 then .error ⟨"front(): length == 0"⟩ else .ok (_front mem s)

/-- The method `back()`: throws on the empty view, otherwise returns `_back()`. -/
def back (mem : Mem) (s : stref) : Except bad_stref_op Int :=
  if s.len = 0 then .error ⟨"back(): length == 0"⟩ else .ok (_back mem s)

/-- The method `chT operator[] (int index) const { return _at(index); }`. -/
def op_index (mem : Mem) (s : stref) (index : Int) : Int := _at mem s index

/-- The test of `at(int index)`: `index < 0 || index >= length()`. In `index >= length()` the
`int` is converted to `size_t`. The statement after the test is `return _at[index];`, which
subscripts the member function `_at` and is not a call of it. -/
def at_invalid_index (s : stref) (index : Int) : Bool :=
  decide (index < 0) || decide (to_size index ≥ s.len)

/-- The method `substr(size_t offset, size_t len)`. -/
def substr (s : stref) (offset len : Nat) : stref :=
  if offset ≥ s.len then ⟨s.ref, 0⟩
  else ⟨s.ref + offset, min len (s.len - offset)⟩

/-- The method `left(size_t len)`. -/
def left (s : stref) (len : Nat) : stref := substr s 0 len

/-- The method `right(size_t len)`. -/
def right (s : stref) (len : Nat) : stref :=
  let len := min len s.len
  substr s (s.len - len) len

/-- The method `starts_with`. -/
def starts_with (mem : Mem) (s rhs : stref) : Bool :=
  if rhs.len = 0 then true
  else if s.len < rhs.len then false
  else op_eq mem (left s rhs.len) rhs

/-- The method `istarts_with`. -/
def istarts_with (tt : traits) (mem : Mem) (s rhs : stref) : Bool :=
  if rhs.len = 0 then true
  else if s.len < rhs.len then false
  else icompare tt mem (left s rhs.len) rhs == 0

/-- The method `ends_with`. -/
def ends_with (mem : Mem) (s rhs : stref) : Bool :=
  if rhs.len = 0 then true
  else if s.len < rhs.len then false
  else op_eq mem (right s rhs.len) rhs

/-- The method `iends_with`. -/
def iends_with (tt : traits) (mem : Mem) (s rhs : stref) : Bool :=
  if rhs.len = 0 then true
  else if s.len < rhs.len then false
  else icompare tt mem (right s rhs.len) rhs == 0

/-- The loop of `trim_left` on the local copy `s`: while `s.length() > 0` and the front character
is whitespace, `++s.ref, --s.len`. Every iteration decrements `s.len`, so the loop makes at most
`length()` iterations; `n` bounds the iterations left. -/
def trim_left_loop (tt : traits) (mem : Mem) : Nat → stref → stref
  | 0, s => s
  | n + 1, s =>
    if s.len > 0 ∧ tt.is_whitespace (_front mem s) = true then
      trim_left_loop tt mem n ⟨s.ref + 1, s.len - 1⟩
    else s

/-- The method `trim_left()`. -/
def trim_left (tt : traits) (mem : Mem) (s : stref) : stref :=
  trim_left_loop tt mem s.len s

/-- The loop of `trim_right` on the local copy `s`: while `s.length() > 0` and the back character
is whitespace, `--s.len`. Every iteration decrements `s.len`, so the loop makes at most
`length()` iterations; `n` bounds the iterations left. -/
def trim_right_loop (tt : traits) (mem : Mem) : Nat → stref → stref
  | 0, s => s
  | n + 1, s =>
    if s.len > 0 ∧ tt.is_whitespace (_back mem s) = true then
      trim_right_loop tt mem n ⟨s.ref, s.len - 1⟩
    else s

/-- The method `trim_right()`. -/
def trim_right (tt : traits) (mem : Mem) (s : stref) : stref :=
  trim_right_loop tt mem s.len s

/-- The method `trim()`: `trim_left().trim_right()`. -/
def trim (tt : traits) (mem : Mem) (s : stref) : stref :=
  trim_right tt mem (trim_left tt mem s)

/-- The method `int find(chT ch, int start) const`. -/
def find_ch (mem : Mem) (ch : Int) (s : stref) (start : Int) : Int :=
  find mem (chmatch ch) s start

/-- The loop of `each`, with `n` iterations left and loop variable `i`: the characters `ref[i]`
passed to `body`, in call order. -/
def each_loop (mem : Mem) (s : stref) : Nat → Nat → List Int
  | 0, _ => []
  | n + 1, i => mem (s.ref + (i : Int)) :: each_loop mem s n (i + 1)

/-- The method `each(body)`: the characters passed to `body`, in call order. -/
def each (mem : Mem) (s : stref) : List Int := each_loop mem s s.len 0

/-- The loop of `each_reverse`, `for (size_t i = len; i > 0; --i) body(ref[i - 1])`, by the
value of the loop variable: the characters passed to `body`, in call order. -/
def each_reverse_loop (mem : Mem) (s : stref) : Nat → List Int
  | 0 => []
  | i + 1 => mem (s.ref + ((i + 1 - 1 : Nat) : Int)) :: each_reverse_loop mem s i

/-- The method `each_reverse(body)`: the characters passed to `body`, in call order. -/
def each_reverse (mem : Mem) (s : stref) : List Int := each_reverse_loop mem s s.len

/-! ## Notions of the specification -/

/-- The segments `g_0, ..., g_k` concatenated with the separator characters `c_1, ..., c_k`
reinserted between them: `g_0 c_1 g_1 ... c_k g_k`; `none` when the counts do not fit. -/
def rejoin : List (List Int) → List Int → Option (List Int)
  | [g], [] => some g
  | g :: gs, c :: cs => (rejoin gs cs).map (fun r => g ++ c :: r)
  | _, _ => none

/-- A memory that is `0` everywhere except for a comma (`44`) at address `1`. -/
def comma_at_1 : Mem := fun p => if p = 1 then 44 else 0

/-- Two views have the same length and the same character at every index. -/
def same_chars (mem : Mem) (a b : stref) : Prop :=
  a.len = b.len ∧ ∀ i, i < a.len → a.nth mem i = b.nth mem i

/-- The memory in which every character is replaced by its lower-case form under the policy. -/
def lowered (tt : traits) (mem : Mem) : Mem := fun p => tt.to_lower_case (mem p)

/-- The lower-cased characters of `a` precede those of `b` in strict lexicographic order: at the
first index where they differ the character of `a` is the smaller one, or the lower-cased
characters of `a` are a proper prefix of those of `b`. -/
def ilex_lt (tt : traits) (mem : Mem) (a b : stref) : Prop :=
  (∃ i, i < min a.len b.len ∧
      (∀ j, j < i → tt.to_lower_case (a.nth mem j) = tt.to_lower_case (b.nth mem j)) ∧
      tt.to_lower_case (a.nth mem i) < tt.to_lower_case (b.nth mem i)) ∨
  ((∀ j, j < min a.len b.len →
      tt.to_lower_case (a.nth mem j) = tt.to_lower_case (b.nth mem j)) ∧ a.len < b.len)

/-- A memory that is `0` everywhere except for a `1` at address `2^32`. -/
def one_at_2_32 : Mem := fun p => if p = 2 ^ 32 then 1 else 0

/-- The indices from `start` on at which the character of the view matches the predicate, in
increasing order. -/
def match_indices (mem : Mem) (match_ : Int → Bool) (s : stref) (start : Nat) : List Nat :=
  (List.range' start (s.len - start)).filter (fun i => match_ (s.nth mem i))

/-- The segments that end at the matching indices `i_1 < i_2 < ...`, searched from `start`: each
matching index `i` ends the segment `middle(start, i - 1)` and the next segment starts at
`i + 1`; the last segment is `substr(start)`. -/
def split_segments (s : stref) : Nat → List Nat → List stref
  | start, [] => [substr_from s start]
  | start, i :: rest => middle s start (to_size ((i : Int) - 1)) :: split_segments s (i + 1) rest

/-- A memory that is `0` everywhere except for a comma (`44`) at address `2^31 + 3`. -/
def comma_at_3 : Mem := fun p => if p = 2 ^ 31 + 3 then 44 else 0

/-! ## Integer conversions -/

theorem to_int_of_lt (i : Nat) (h : i < 2 ^ 31) : to_int (i : Int) = (i : Int) := by
  unfold to_int
  omega

theorem to_int_lower (x : Int) : -(2 ^ 31) ≤ to_int x := by
  unfold to_int
  omega

theorem to_int_upper (x : Int) : to_int x < 2 ^ 31 := by
  unfold to_int
  omega

/-! ## `compare`, `icompare` and the relational operators -/

theorem compare_loop_skip (mem : Mem) (a b : stref) (n : Nat) :
    ∀ (k i : Nat), (∀ j, j < k → _at mem a (to_int ((i + j : Nat) : Int))
        = _at mem b (to_int ((i + j : Nat) : Int))) →
      compare_loop mem a b (k + n) i = compare_loop mem a b n (i + k) := by
  intro k
  induction k with
  | zero => intro i _; simp
  | succ k ih =>
    intro i h
    have h0 := h 0 (Nat.succ_pos k)
    have hstep : compare_loop mem a b (k + 1 + n) i = compare_loop mem a b (k + n) (i + 1) := by
      rw [show k + 1 + n = (k + n) + 1 by omega, compare_loop]
      simp only [Nat.add_zero] at h0
      simp [h0]
    rw [hstep, ih (i + 1)]
    · congr 1; omega
    · intro j hj
      have := h (j + 1) (by omega)
      rwa [show i + (j + 1) = i + 1 + j by omega] at this

theorem icompare_loop_eq (tt : traits) (mem : Mem) (a b : stref) (n : Nat) :
    ∀ i, icompare_loop tt mem a b n i
      = compare_loop (fun p => tt.to_lower_case (mem p)) a b n i := by
  induction n with
  | zero => intro i; rfl
  | succ n ih =>
    intro i
    simp only [icompare_loop, compare_loop, _at, ih]


theorem compare_all_equal (mem : Mem) (a b : stref)
    (h : ∀ j, j < min a.len b.len →
      _at mem a (to_int ((j : Nat) : Int)) = _at mem b (to_int ((j : Nat) : Int))) :
    compare mem a b = if a.len = b.len then 0 else to_int (size_sub a.len b.len) := by
  have hs := compare_loop_skip mem a b 0 (min a.len b.len) 0
    (fun j hj => by simpa using h j hj)
  simp only [Nat.add_zero, Nat.zero_add] at hs
  rw [compare, hs, compare_loop]

theorem compare_first_mismatch (mem : Mem) (a b : stref) (k : Nat) (hk : k < min a.len b.len)
    (heq : ∀ j, j < k →
      _at mem a (to_int ((j : Nat) : Int)) = _at mem b (to_int ((j : Nat) : Int)))
    (hne : _at mem a (to_int ((k : Nat) : Int)) ≠ _at mem b (to_int ((k : Nat) : Int))) :
    compare mem a b = _at mem a (to_int ((k : Nat) : Int)) - _at mem b (to_int ((k : Nat) : Int)) := by
  obtain ⟨n, hn⟩ : ∃ n, min a.len b.len = k + (n + 1) := ⟨min a.len b.len - k - 1, by omega⟩
  have hs := compare_loop_skip mem a b (n + 1) k 0 (fun j hj => by simpa using heq j hj)
  rw [compare, hn, hs, compare_loop]
  simp only [Nat.zero_add]
  rw [if_pos hne]

theorem length_difference (x y : Nat) (hx : x < 2 ^ 31) (hy : y < 2 ^ 31) :
    (if x = y then (0 : Int) else to_int (size_sub x y)) = (x : Int) - (y : Int) := by
  unfold to_int size_sub
  split <;> omega

theorem compare_nth_mismatch (mem : Mem) (a b : stref) (ha : a.len ≤ 2 ^ 31) (hb : b.len ≤ 2 ^ 31)
    (i : Nat) (hi : i < min a.len b.len) (hne : a.nth mem i ≠ b.nth mem i)
    (heq : ∀ j, j < i → a.nth mem j = b.nth mem j) :
    compare mem a b = a.nth mem i - b.nth mem i := by
  have hidx : ∀ j, j < min a.len b.len → to_int ((j : Nat) : Int) = (j : Int) :=
    fun j hj => to_int_of_lt j (by omega)
  have := compare_first_mismatch mem a b i hi
    (fun j hj => by
      have := heq j hj
      simpa [_at, stref.nth, hidx j (by omega)] using this)
    (by simpa [_at, stref.nth, hidx i hi] using hne)
  simpa [_at, stref.nth, hidx i hi] using this

theorem compare_nth_equal (mem : Mem) (a b : stref) (ha : a.len < 2 ^ 31) (hb : b.len < 2 ^ 31)
    (heq : ∀ i, i < min a.len b.len → a.nth mem i = b.nth mem i) :
    compare mem a b = (a.len : Int) - (b.len : Int) := by
  have hidx : ∀ j, j < min a.len b.len → to_int ((j : Nat) : Int) = (j : Int) :=
    fun j hj => to_int_of_lt j (by omega)
  rw [compare_all_equal mem a b (fun j hj => by
    have := heq j hj
    simpa [_at, stref.nth, hidx j hj] using this)]
  exact length_difference a.len b.len ha hb

/-- C5. For views whose lengths are below `2^31`: when `i` is the least index below the shorter
length at which the two views differ, `compare` returns the difference `a[i] - b[i]`; when the
views agree on all of the shorter length, it returns the difference of the lengths. -/
theorem compare_spec (mem : Mem) (a b : stref) (ha : a.len < 2 ^ 31) (hb : b.len < 2 ^ 31) :
    (∀ i, i < min a.len b.len → a.nth mem i ≠ b.nth mem i →
        (∀ j, j < i → a.nth mem j = b.nth mem j) →
        compare mem a b = a.nth mem i - b.nth mem i) ∧
    ((∀ i, i < min a.len b.len → a.nth mem i = b.nth mem i) →
        compare mem a b = (a.len : Int) - (b.len : Int)) :=
  ⟨fun i hi hne heq => compare_nth_mismatch mem a b (le_of_lt ha) (le_of_lt hb) i hi hne heq,
   fun heq => compare_nth_equal mem a b ha hb heq⟩

/-- Witness of C5 on the views "abc" and "abd". -/
theorem compare_spec_witness :
    compare (mem_of [97, 98, 99, 97, 98, 100]) ⟨0, 3⟩ ⟨3, 3⟩ = -1 :=
  (compare_spec (mem_of [97, 98, 99, 97, 98, 100]) ⟨0, 3⟩ ⟨3, 3⟩ (by decide) (by decide)).1 2
    (by decide) (by decide) (by decide)


theorem compare_loop_eq_zero_iff (mem : Mem) (a b : stref) (n : Nat) :
    ∀ i, compare_loop mem a b n i = 0 ↔
      (∀ j, j < n → _at mem a (to_int ((i + j : Nat) : Int))
        = _at mem b (to_int ((i + j : Nat) : Int))) ∧
      (if a.len = b.len then (0 : Int) else to_int (size_sub a.len b.len)) = 0 := by
  induction n with
  | zero => intro i; simp [compare_loop]
  | succ n ih =>
    intro i
    rw [compare_loop]
    by_cases hc : _at mem a (to_int (i : Int)) = _at mem b (to_int (i : Int))
    · rw [if_neg (not_not.mpr hc), ih (i + 1)]
      constructor
      · rintro ⟨h1, h2⟩
        refine ⟨fun j hj => ?_, h2⟩
        rcases j with _ | j
        · simpa using hc
        · have := h1 j (by omega)
          rwa [show i + 1 + j = i + (j + 1) by omega] at this
      · rintro ⟨h1, h2⟩
        refine ⟨fun j hj => ?_, h2⟩
        have := h1 (j + 1) (by omega)
        rwa [show i + (j + 1) = i + 1 + j by omega] at this
    · rw [if_pos hc]
      constructor
      · intro h
        exact absurd (sub_eq_zero.mp h) hc
      · rintro ⟨h1, _⟩
        exact absurd (by simpa using h1 0 (Nat.succ_pos n)) hc

theorem compare_eq_zero_iff (mem : Mem) (a b : stref) :
    compare mem a b = 0 ↔
      (∀ j, j < min a.len b.len → _at mem a (to_int ((j : Nat) : Int))
        = _at mem b (to_int ((j : Nat) : Int))) ∧
      (if a.len = b.len then (0 : Int) else to_int (size_sub a.len b.len)) = 0 := by
  rw [compare, compare_loop_eq_zero_iff]
  simp only [Nat.zero_add]

theorem length_tail_eq_zero_iff (x y : Nat) (hx : x ≤ 2 ^ 31) (hy : y ≤ 2 ^ 31) :
    (if x = y then (0 : Int) else to_int (size_sub x y)) = 0 ↔ x = y := by
  unfold to_int size_sub
  split <;> omega

theorem at_eq_iff_nth_eq (mem : Mem) (a b : stref) (j : Nat) (hj : j < 2 ^ 31) :
    _at mem a (to_int ((j : Nat) : Int)) = _at mem b (to_int ((j : Nat) : Int))
      ↔ a.nth mem j = b.nth mem j := by
  rw [to_int_of_lt j hj]
  rfl

theorem compare_eq_zero_iff_of_le (mem : Mem) (a b : stref)
    (ha : a.len ≤ 2 ^ 31) (hb : b.len ≤ 2 ^ 31) :
    compare mem a b = 0 ↔ same_chars mem a b := by
  rw [compare_eq_zero_iff, length_tail_eq_zero_iff a.len b.len ha hb, same_chars]
  constructor
  · rintro ⟨h1, h2⟩
    refine ⟨h2, fun i hi => ?_⟩
    exact (at_eq_iff_nth_eq mem a b i (by omega)).mp (h1 i (by omega))
  · rintro ⟨h1, h2⟩
    refine ⟨fun j hj => ?_, h1⟩
    exact (at_eq_iff_nth_eq mem a b j (by omega)).mpr (h2 j (by omega))

/-- C6, as amended. For views whose lengths are at most `2^31`, `compare` returns `0` exactly
when the two views have the same length and the same character at every index. -/
theorem compare_zero_iff_same_chars (mem : Mem) (a b : stref)
    (ha : a.len ≤ 2 ^ 31) (hb : b.len ≤ 2 ^ 31) :
    compare mem a b = 0 ↔ same_chars mem a b :=
  compare_eq_zero_iff_of_le mem a b ha hb

/-- Witness of C6 as amended, on the views "ab" and "ab" at two addresses. -/
theorem compare_zero_iff_same_chars_witness :
    compare (mem_of [97, 98, 97, 98]) ⟨0, 2⟩ ⟨2, 2⟩ = 0
      ↔ same_chars (mem_of [97, 98, 97, 98]) ⟨0, 2⟩ ⟨2, 2⟩ :=
  compare_zero_iff_same_chars (mem_of [97, 98, 97, 98]) ⟨0, 2⟩ ⟨2, 2⟩ (by decide) (by decide)

/-- C6, counterexample. A view of `2^32` characters and an empty view: `compare` returns `0`
although the lengths differ. -/
theorem compare_zero_of_unequal :
    compare (mem_of []) ⟨0, 2 ^ 32⟩ ⟨0, 0⟩ = 0 ∧ ¬ same_chars (mem_of []) ⟨0, 2 ^ 32⟩ ⟨0, 0⟩ :=
  ⟨by decide, fun h => absurd h.1 (by decide)⟩


theorem op_ne_eq_not_op_eq (mem : Mem) (a b : stref) : op_ne mem a b = !op_eq mem a b := by
  unfold op_ne op_eq
  by_cases h1 : a.len = b.len <;> by_cases h2 : a.ref = b.ref <;> simp [h1, h2, bne]

theorem same_chars_of_same_view (mem : Mem) (a b : stref) (h1 : a.len = b.len)
    (h2 : a.ref = b.ref) : same_chars mem a b :=
  ⟨h1, fun i _ => by simp [stref.nth, h2]⟩

/-- C4, as amended. For views whose lengths are at most `2^31`, `a == b` is true exactly when
the two views have the same length and the same character at every index, whether or not they
share a backing pointer; and `a != b` is the negation of `a == b`. -/
theorem op_eq_iff_same_chars (mem : Mem) (a b : stref)
    (ha : a.len ≤ 2 ^ 31) (hb : b.len ≤ 2 ^ 31) :
    (op_eq mem a b = true ↔ same_chars mem a b) ∧ op_ne mem a b = !op_eq mem a b := by
  refine ⟨?_, op_ne_eq_not_op_eq mem a b⟩
  unfold op_eq
  by_cases h1 : a.len = b.len
  · by_cases h2 : a.ref = b.ref
    · simp [h1, h2, same_chars_of_same_view mem a b h1 h2]
    · simp only [h1, ne_eq, not_true_eq_false, if_false, h2, beq_iff_eq]
      exact compare_eq_zero_iff_of_le mem a b ha hb
  · simp only [ne_eq, h1, not_false_eq_true, if_true]
    constructor
    · intro h; exact absurd h (by decide)
    · intro h; exact absurd h.1 h1

/-- Witness of C4 as amended, on the views "ab" and "ab" at two addresses. -/
theorem op_eq_iff_same_chars_witness :
    (op_eq (mem_of [97, 98, 97, 98]) ⟨0, 2⟩ ⟨2, 2⟩ = true
      ↔ same_chars (mem_of [97, 98, 97, 98]) ⟨0, 2⟩ ⟨2, 2⟩) ∧
    op_ne (mem_of [97, 98, 97, 98]) ⟨0, 2⟩ ⟨2, 2⟩ = !op_eq (mem_of [97, 98, 97, 98]) ⟨0, 2⟩ ⟨2, 2⟩ :=
  op_eq_iff_same_chars (mem_of [97, 98, 97, 98]) ⟨0, 2⟩ ⟨2, 2⟩ (by decide) (by decide)

/-- C4, counterexample. Two views of `2^31 + 1` characters that differ at index `2^31`, where
the first holds a `1` and the second a `0`: `a == b` is true. The loop of `compare` passes the
`size_t` index `2^31` to `_at(int)`, which reads `ref[-2^31]` in both views. -/
theorem op_eq_of_unequal :
    op_eq one_at_2_32 ⟨2 ^ 31, 2 ^ 31 + 1⟩ ⟨2 ^ 34, 2 ^ 31 + 1⟩ = true ∧
    ¬ same_chars one_at_2_32 ⟨2 ^ 31, 2 ^ 31 + 1⟩ ⟨2 ^ 34, 2 ^ 31 + 1⟩ := by
  constructor
  · have hc : compare one_at_2_32 ⟨2 ^ 31, 2 ^ 31 + 1⟩ ⟨2 ^ 34, 2 ^ 31 + 1⟩ = 0 := by
      rw [compare_all_equal]
      · simp
      · intro j _
        have hl := to_int_lower (j : Int)
        have hu := to_int_upper (j : Int)
        simp only [_at, one_at_2_32]
        rw [if_neg (by omega), if_neg (by omega)]
    simp only [op_eq, hc]
    simp
  · intro h
    have := h.2 (2 ^ 31) (by norm_num)
    revert this
    simp [stref.nth, one_at_2_32]


/-- C3, failing input. The views "a" and "ab" over the same backing pointer: `a > b` and
`a >= b` are true although `compare` returns `-1` (and `a < b` is true as well). -/
theorem op_gt_of_shorter_same_pointer :
    op_gt (mem_of [97, 98]) ⟨0, 1⟩ ⟨0, 2⟩ = true ∧
    op_ge (mem_of [97, 98]) ⟨0, 1⟩ ⟨0, 2⟩ = true ∧
    compare (mem_of [97, 98]) ⟨0, 1⟩ ⟨0, 2⟩ = -1 ∧
    op_lt (mem_of [97, 98]) ⟨0, 1⟩ ⟨0, 2⟩ = true := by
  decide

theorem icompare_eq_compare (tt : traits) (mem : Mem) (a b : stref) :
    icompare tt mem a b = compare (lowered tt mem) a b := by
  rw [icompare, compare, icompare_loop_eq]
  rfl

/-- C7, as amended. For every policy and every pair of views, `icompare` returns what `compare`
returns on the same two views over the memory in which every character is replaced by its
lower-case form. For views whose lengths are below `2^31` that result is: the difference of the
first pair of lower-cased characters that differ, and the difference of the lengths when the
lower-cased characters agree on all of the shorter length. -/
theorem icompare_refines_compare (tt : traits) (mem : Mem) (a b : stref) :
    icompare tt mem a b = compare (lowered tt mem) a b ∧
    (∀ i, a.nth (lowered tt mem) i = tt.to_lower_case (a.nth mem i)) ∧
    (∀ i, b.nth (lowered tt mem) i = tt.to_lower_case (b.nth mem i)) ∧
    (a.len < 2 ^ 31 → b.len < 2 ^ 31 →
      (∀ i, i < min a.len b.len →
        tt.to_lower_case (a.nth mem i) ≠ tt.to_lower_case (b.nth mem i) →
        (∀ j, j < i → tt.to_lower_case (a.nth mem j) = tt.to_lower_case (b.nth mem j)) →
        icompare tt mem a b
          = tt.to_lower_case (a.nth mem i) - tt.to_lower_case (b.nth mem i)) ∧
      ((∀ i, i < min a.len b.len →
          tt.to_lower_case (a.nth mem i) = tt.to_lower_case (b.nth mem i)) →
        icompare tt mem a b = (a.len : Int) - (b.len : Int))) := by
  refine ⟨icompare_eq_compare tt mem a b, fun _ => rfl, fun _ => rfl, fun ha hb => ⟨?_, ?_⟩⟩
  · intro i hi hne heq
    rw [icompare_eq_compare]
    exact compare_nth_mismatch (lowered tt mem) a b (le_of_lt ha) (le_of_lt hb) i hi hne heq
  · intro heq
    rw [icompare_eq_compare]
    exact compare_nth_equal (lowered tt mem) a b ha hb heq

/-- Witness of C7 as amended, on the views "aaa" and "AAB" under the narrow-character policy:
the lower-cased characters first differ at index `2`, and `icompare` returns `'a' - 'b'`. -/
theorem icompare_refines_compare_witness :
    icompare char_traits (mem_of [97, 97, 97, 65, 65, 66]) ⟨0, 3⟩ ⟨3, 3⟩ = -1 :=
  ((icompare_refines_compare char_traits (mem_of [97, 97, 97, 65, 65, 66]) ⟨0, 3⟩ ⟨3, 3⟩).2.2.2
    (by decide) (by decide)).1 2 (by decide) (by decide) (by decide)

/-- C7, counterexample. The empty view and a view of `2^32` characters: no pair of lower-cased
characters differs (none is compared), and `icompare` returns `0`, which is not the difference
`0 - 2^32` of the lengths. The `size_t` difference keeps its low 32 bits when it is returned as
`int`. -/
theorem icompare_not_length_difference :
    icompare char_traits (mem_of []) ⟨0, 0⟩ ⟨0, 2 ^ 32⟩ = 0 ∧
    compare (lowered char_traits (mem_of [])) ⟨0, 0⟩ ⟨0, 2 ^ 32⟩ = 0 ∧
    min (⟨0, 0⟩ : stref).len (⟨0, 2 ^ 32⟩ : stref).len = 0 ∧
    icompare char_traits (mem_of []) ⟨0, 0⟩ ⟨0, 2 ^ 32⟩
      ≠ (((⟨0, 0⟩ : stref).len : Nat) : Int) - (((⟨0, 2 ^ 32⟩ : stref).len : Nat) : Int) := by
  decide

theorem icompare_loop_zero_of_compare_loop_zero (tt : traits) (mem : Mem) (a b : stref)
    (hlen : a.len = b.len) (n : Nat) :
    ∀ i, compare_loop mem a b n i = 0 → icompare_loop tt mem a b n i = 0 := by
  induction n with
  | zero => intro i _; simp [icompare_loop, hlen]
  | succ n ih =>
    intro i
    rw [compare_loop, icompare_loop]
    by_cases hc : _at mem a (to_int (i : Int)) = _at mem b (to_int (i : Int))
    · rw [if_neg (not_not.mpr hc)]
      intro h
      simp only [hc, ne_eq, not_true_eq_false, if_false]
      exact ih (i + 1) h
    · rw [if_pos hc]
      intro h
      exact absurd (sub_eq_zero.mp h) hc

theorem iequals_refl (tt : traits) (mem : Mem) (a : stref) : iequals tt mem a a = true := by
  simp [iequals]

theorem iequals_of_op_eq (tt : traits) (mem : Mem) (a b : stref) (h : op_eq mem a b = true) :
    iequals tt mem a b = true := by
  unfold op_eq at h
  unfold iequals
  by_cases h1 : a.len = b.len
  · by_cases h2 : a.ref = b.ref
    · simp [h1, h2]
    · simp only [h1, ne_eq, not_true_eq_false, if_false, h2, beq_iff_eq] at h ⊢
      exact icompare_loop_zero_of_compare_loop_zero tt mem a b h1 _ 0 h
  · simp [h1] at h

/-- C8. Case-insensitive equality is reflexive, it holds whenever `==` holds, and the converse
fails: "Aaa" and "aaa" are `iequals` under the narrow-character policy and are not `==`. -/
theorem iequals_proper_refinement (tt : traits) (mem : Mem) :
    (∀ a, iequals tt mem a a = true) ∧
    (∀ a b, op_eq mem a b = true → iequals tt mem a b = true) ∧
    (iequals char_traits (mem_of [65, 97, 97, 0, 97, 97, 97]) ⟨0, 3⟩ ⟨4, 3⟩ = true ∧
      op_eq (mem_of [65, 97, 97, 0, 97, 97, 97]) ⟨0, 3⟩ ⟨4, 3⟩ = false) :=
  ⟨iequals_refl tt mem, iequals_of_op_eq tt mem, by decide⟩

/-- Witness of C8 on the views "ab" and "ab" at two addresses. -/
theorem iequals_proper_refinement_witness :
    iequals char_traits (mem_of [97, 98, 97, 98]) ⟨0, 2⟩ ⟨2, 2⟩ = true :=
  (iequals_proper_refinement char_traits (mem_of [97, 98, 97, 98])).2.1 ⟨0, 2⟩ ⟨2, 2⟩ (by decide)

/-- C10, failing input. The views "a" and "ab" over the same backing pointer:
`igreater_than` and `igreater_than_eq` are true although `icompare` returns `-1` and
`b.iless_than(a)` is false. -/
theorem igreater_than_of_shorter_same_pointer :
    igreater_than char_traits (mem_of [97, 98]) ⟨0, 1⟩ ⟨0, 2⟩ = true ∧
    igreater_than_eq char_traits (mem_of [97, 98]) ⟨0, 1⟩ ⟨0, 2⟩ = true ∧
    icompare char_traits (mem_of [97, 98]) ⟨0, 1⟩ ⟨0, 2⟩ = -1 ∧
    iless_than char_traits (mem_of [97, 98]) ⟨0, 2⟩ ⟨0, 1⟩ = false := by
  decide


theorem compare_neg_iff (mem : Mem) (a b : stref) (ha : a.len < 2 ^ 31) (hb : b.len < 2 ^ 31) :
    compare mem a b < 0 ↔
      (∃ i, i < min a.len b.len ∧ (∀ j, j < i → a.nth mem j = b.nth mem j) ∧
          a.nth mem i < b.nth mem i) ∨
      ((∀ j, j < min a.len b.len → a.nth mem j = b.nth mem j) ∧ a.len < b.len) := by
  by_cases hall : ∀ j, j < min a.len b.len → a.nth mem j = b.nth mem j
  · rw [compare_nth_equal mem a b ha hb hall]
    constructor
    · intro h
      exact Or.inr ⟨hall, by omega⟩
    · rintro (⟨i, hi, _, hlt⟩ | ⟨_, h⟩)
      · exact absurd (hall i hi) (ne_of_lt hlt)
      · omega
  · have hex : ∃ j, j < min a.len b.len ∧ a.nth mem j ≠ b.nth mem j := by
      push_neg at hall
      exact hall
    classical
    have hk := Nat.find_spec hex
    have hmin : ∀ j, j < Nat.find hex → a.nth mem j = b.nth mem j := by
      intro j hj
      by_contra hne
      exact Nat.find_min hex hj ⟨by omega, hne⟩
    rw [compare_nth_mismatch mem a b (le_of_lt ha) (le_of_lt hb) (Nat.find hex) hk.1 hk.2 hmin]
    constructor
    · intro h
      exact Or.inl ⟨Nat.find hex, hk.1, hmin, by omega⟩
    · rintro (⟨i, hi, hieq, hlt⟩ | ⟨h, _⟩)
      · rcases lt_trichotomy i (Nat.find hex) with h | h | h
        · exact absurd (hmin i h) (ne_of_lt hlt)
        · rw [h] at hlt
          omega
        · exact absurd (hieq _ h) hk.2
      · exact absurd h hall

theorem icompare_same_pointer (tt : traits) (mem : Mem) (a b : stref) (href : a.ref = b.ref) :
    icompare tt mem a b = if a.len = b.len then 0 else to_int (size_sub a.len b.len) := by
  rw [icompare_eq_compare]
  exact compare_all_equal (lowered tt mem) a b (fun j _ => by simp [_at, href])

theorem iless_than_self (tt : traits) (mem : Mem) (a : stref) : iless_than tt mem a a = false := by
  simp [iless_than, icompare_same_pointer tt mem a a rfl]

/-- C9, as amended. For views whose lengths are below `2^31`, including views that share a
backing pointer: `iless_than` is true exactly when `icompare` is negative, which is exactly when
the lower-cased characters of `a` precede those of `b` lexicographically or are a proper prefix
of them; and `a.iless_than(a)` is false. -/
theorem iless_than_iff (tt : traits) (mem : Mem) (a b : stref)
    (ha : a.len < 2 ^ 31) (hb : b.len < 2 ^ 31) :
    (iless_than tt mem a b = true ↔ icompare tt mem a b < 0) ∧
    (icompare tt mem a b < 0 ↔ ilex_lt tt mem a b) ∧
    iless_than tt mem a a = false := by
  refine ⟨?_, ?_, iless_than_self tt mem a⟩
  · unfold iless_than
    by_cases hc : a.ref = b.ref ∧ a.len < b.len
    · rw [if_pos hc, icompare_same_pointer tt mem a b hc.1]
      have := length_difference a.len b.len ha hb
      simp only [true_iff]
      omega
    · rw [if_neg hc]
      simp
  · rw [icompare_eq_compare]
    exact compare_neg_iff (lowered tt mem) a b ha hb

/-- Witness of C9 as amended, on the views "aaa" and "aab". -/
theorem iless_than_iff_witness :
    (iless_than char_traits (mem_of [97, 97, 97, 97, 97, 98]) ⟨0, 3⟩ ⟨3, 3⟩ = true ↔
      icompare char_traits (mem_of [97, 97, 97, 97, 97, 98]) ⟨0, 3⟩ ⟨3, 3⟩ < 0) ∧
    (icompare char_traits (mem_of [97, 97, 97, 97, 97, 98]) ⟨0, 3⟩ ⟨3, 3⟩ < 0 ↔
      ilex_lt char_traits (mem_of [97, 97, 97, 97, 97, 98]) ⟨0, 3⟩ ⟨3, 3⟩) ∧
    iless_than char_traits (mem_of [97, 97, 97, 97, 97, 98]) ⟨0, 3⟩ ⟨0, 3⟩ = false :=
  iless_than_iff char_traits (mem_of [97, 97, 97, 97, 97, 98]) ⟨0, 3⟩ ⟨3, 3⟩
    (by decide) (by decide)

/-- C9, counterexample. The empty view and a view of `2^32` characters over the same backing
pointer: `iless_than` is true and `icompare` returns `0`. -/
theorem iless_than_without_negative_icompare :
    iless_than char_traits (mem_of []) ⟨0, 0⟩ ⟨0, 2 ^ 32⟩ = true ∧
    ¬ icompare char_traits (mem_of []) ⟨0, 0⟩ ⟨0, 2 ^ 32⟩ < 0 := by
  decide


/-! ## `find` and `split` -/

theorem find_loop_skip (mem : Mem) (match_ : Int → Bool) (s : stref) (n : Nat) :
    ∀ (k i : Nat), (∀ j, j < k → match_ (_at mem s (to_int ((i + j : Nat) : Int))) = false) →
      find_loop mem match_ s (k + n) i = find_loop mem match_ s n (i + k) := by
  intro k
  induction k with
  | zero => intro i _; simp
  | succ k ih =>
    intro i h
    have h0 := h 0 (Nat.succ_pos k)
    have hstep : find_loop mem match_ s (k + 1 + n) i = find_loop mem match_ s (k + n) (i + 1) := by
      rw [show k + 1 + n = (k + n) + 1 by omega, find_loop]
      simp only [Nat.add_zero] at h0
      simp [h0]
    rw [hstep, ih (i + 1)]
    · congr 1; omega
    · intro j hj
      have := h (j + 1) (by omega)
      rwa [show i + (j + 1) = i + 1 + j by omega] at this

theorem to_size_zero : to_size 0 = 0 := by decide

theorem find_none (mem : Mem) (match_ : Int → Bool) (s : stref) (hlen : s.len ≤ 2 ^ 31)
    (hno : ∀ i, i < s.len → match_ (s.nth mem i) = false) :
    find mem match_ s 0 = npos := by
  have hs := find_loop_skip mem match_ s 0 s.len 0 (fun j hj => by
    have := hno j hj
    rw [Nat.zero_add, to_int_of_lt j (by omega)]
    exact this)
  rw [find, to_size_zero, Nat.sub_zero]
  simp only [Nat.add_zero, Nat.zero_add] at hs
  rw [hs, find_loop]

theorem substr_from_zero (s : stref) : substr_from s 0 = s := by
  unfold substr_from
  by_cases h : 0 ≥ s.len
  · rw [if_pos h]
    have h0 : s.len = 0 := by omega
    cases s
    simp_all
  · rw [if_neg h]
    cases s
    simp

/-- C2, as amended. For every view of at most `2^31` characters, the empty view included, in
which no character matches the predicate, `split` calls `body` exactly once, with the whole
view. -/
theorem split_without_separator (mem : Mem) (match_ : Int → Bool) (s : stref)
    (hlen : s.len ≤ 2 ^ 31) (hno : ∀ i, i < s.len → match_ (s.nth mem i) = false) (fuel : Nat) :
    split mem match_ s (fuel + 1) = some [s] := by
  rw [split, find_none mem match_ s hlen hno, split_loop]
  simp [to_size_zero, substr_from_zero]

/-- Witness of C2 as amended, on the view "ab" split at commas. -/
theorem split_without_separator_witness :
    split (mem_of [97, 98]) (chmatch 44) ⟨0, 2⟩ 1 = some [⟨0, 2⟩] :=
  split_without_separator (mem_of [97, 98]) (chmatch 44) ⟨0, 2⟩ (by decide) (by decide) 0

theorem find_wrapped_index :
    find comma_at_1 (chmatch 44) ⟨2 ^ 31, 2 ^ 31 + 2⟩ 0 = -(2 ^ 31) + 1 := by
  have hs := find_loop_skip comma_at_1 (chmatch 44) ⟨2 ^ 31, 2 ^ 31 + 2⟩ 1 (2 ^ 31 + 1) 0
    (fun j hj => by
      have hl := to_int_lower ((0 + j : Nat) : Int)
      have hu : to_int ((0 + j : Nat) : Int) ≠ -(2 ^ 31) + 1 := by
        unfold to_int
        omega
      simp only [_at, comma_at_1, chmatch]
      rw [if_neg (by omega)]
      rfl)
  have hlen : (⟨2 ^ 31, 2 ^ 31 + 2⟩ : stref).len = 2 ^ 31 + 1 + 1 := by norm_num
  rw [find, to_size_zero, Nat.sub_zero, hlen, hs, find_loop]
  have h1 : to_int (((0 + (2 ^ 31 + 1) : Nat)) : Int) = -(2 ^ 31) + 1 := by decide
  rw [h1]
  rfl


theorem find_past_end :
    find comma_at_1 (chmatch 44) ⟨2 ^ 31, 2 ^ 31 + 2⟩ (to_int (-(2 ^ 31) + 1 + 1)) = npos := by
  decide

theorem split_wrapped_index (fuel : Nat) :
    split comma_at_1 (chmatch 44) ⟨2 ^ 31, 2 ^ 31 + 2⟩ (fuel + 2)
      = some [⟨2 ^ 31, 2 ^ 31 + 2⟩, ⟨2 ^ 31, 0⟩] := by
  rw [split, find_wrapped_index, split_loop, if_pos (by decide)]
  simp only [find_past_end]
  rw [split_loop, if_neg (by decide)]
  decide

/-- C2, counterexample. A view of `2^31 + 2` characters, none of which is a comma, split at
commas: `body` is called twice, with the whole view and with an empty view. The loop of `find`
passes the `size_t` index `2^31 + 1` to `_at(int)`, which reads `ref[-2^31 + 1]`, a comma lying
before the view. -/
theorem split_twice_without_separator :
    (∀ i, i < 2 ^ 31 + 2 → chmatch 44 ((⟨2 ^ 31, 2 ^ 31 + 2⟩ : stref).nth comma_at_1 i) = false) ∧
    split comma_at_1 (chmatch 44) ⟨2 ^ 31, 2 ^ 31 + 2⟩ 2
      = some [⟨2 ^ 31, 2 ^ 31 + 2⟩, ⟨2 ^ 31, 0⟩] ∧
    ∀ fuel, split comma_at_1 (chmatch 44) ⟨2 ^ 31, 2 ^ 31 + 2⟩ fuel
      ≠ some [⟨2 ^ 31, 2 ^ 31 + 2⟩] := by
  refine ⟨?_, split_wrapped_index 0, ?_⟩
  · intro i _
    simp only [stref.nth, comma_at_1, chmatch]
    rw [if_neg (by omega)]
    rfl
  · intro fuel
    rcases fuel with _ | _ | fuel
    · simp [split, split_loop]
    · rw [split, find_wrapped_index, split_loop, if_pos (by decide)]
      simp [split_loop]
    · rw [split_wrapped_index fuel]
      decide


/-- C1, failing input. The view ",a" split at commas: `body` receives the whole view ",a" and
then "a", and rejoining these two segments with the comma gives ",a,a", not ",a". -/
theorem split_leading_separator :
    split (mem_of [44, 97]) (chmatch 44) ⟨0, 2⟩ 3 = some [⟨0, 2⟩, ⟨1, 1⟩] ∧
    rejoin ([⟨0, 2⟩, ⟨1, 1⟩].map (stref.chars (mem_of [44, 97])))
        ((stref.chars (mem_of [44, 97]) ⟨0, 2⟩).filter (chmatch 44))
      = some [44, 97, 44, 97] ∧
    stref.chars (mem_of [44, 97]) ⟨0, 2⟩ = [44, 97] := by
  decide


/-! ## Sub-views: `substr`, `left`, `right`, `middle` -/

theorem substr_past_end (s : stref) (offset len : Nat) (h : offset ≥ s.len) :
    substr s offset len = ⟨s.ref, 0⟩ := by
  rw [substr, if_pos h]

theorem substr_within (s : stref) (offset len : Nat) (h : offset < s.len) :
    substr s offset len = ⟨s.ref + offset, min len (s.len - offset)⟩ := by
  rw [substr, if_neg (by omega)]

theorem substr_whole (s : stref) : substr s 0 s.len = s := by
  cases s with
  | mk r l =>
    by_cases h : l = 0
    · subst h
      simp [substr]
    · simp [substr, h]

theorem op_eq_self (mem : Mem) (s : stref) : op_eq mem s s = true := by
  simp [op_eq]

/-- C11. For every view `s` and every `offset` and `len`: when `offset >= length()` the result
of `substr(offset, len)` is the empty view at the pointer of `s`; otherwise it has exactly
`min(len, length() - offset)` characters and its `i`-th character is `s[offset + i]`. And
`s.substr(0, length())` is `s`, so it is `== s`. -/
theorem substr_spec (mem : Mem) (s : stref) (offset len : Nat) :
    (offset ≥ s.len → substr s offset len = ⟨s.ref, 0⟩) ∧
    (offset < s.len →
      (substr s offset len).len = min len (s.len - offset) ∧
      ∀ i, i < min len (s.len - offset) →
        (substr s offset len).nth mem i = s.nth mem (offset + i)) ∧
    op_eq mem (substr s 0 s.len) s = true := by
  refine ⟨substr_past_end s offset len, fun h => ?_, ?_⟩
  · rw [substr_within s offset len h]
    refine ⟨rfl, fun i _ => ?_⟩
    simp only [stref.nth]
    congr 1
    push_cast
    ring
  · rw [substr_whole]
    exact op_eq_self mem s

/-- Witness of C11: `substr(4, 6)` of "sub-string test" is the view of "string". -/
theorem substr_spec_witness :
    (substr ⟨0, 15⟩ 4 6).len = min 6 (15 - 4) ∧
    ∀ i, i < min 6 (15 - 4) →
      (substr ⟨0, 15⟩ 4 6).nth (mem_of [115, 117, 98, 45, 115, 116, 114, 105, 110, 103]) i
        = (⟨0, 15⟩ : stref).nth (mem_of [115, 117, 98, 45, 115, 116, 114, 105, 110, 103]) (4 + i) :=
  (substr_spec (mem_of [115, 117, 98, 45, 115, 116, 114, 105, 110, 103]) ⟨0, 15⟩ 4 6).2.1
    (by decide)

theorem chars_append (mem : Mem) (r : Int) (n m : Nat) :
    stref.chars mem ⟨r, n⟩ ++ stref.chars mem ⟨r + n, m⟩ = stref.chars mem ⟨r, n + m⟩ := by
  simp only [stref.chars, stref.nth, List.range_add, List.map_append, List.map_map]
  congr 1
  apply List.map_congr_left
  intro i _
  simp only [Function.comp]
  congr 1
  push_cast
  ring

theorem left_of_le (s : stref) (n : Nat) (h : n ≤ s.len) : left s n = ⟨s.ref, n⟩ := by
  unfold left substr
  by_cases h0 : 0 ≥ s.len
  · rw [if_pos h0]
    congr 1
    omega
  · rw [if_neg h0]
    simp only [Nat.cast_zero, add_zero, Nat.sub_zero]
    congr 1
    omega

/-- C12. For every view `s` and every `n <= length()`, the characters of `left(n)` followed by
the characters of `substr(n)` are the characters of `s`, and the two lengths add up to
`length()`. -/
theorem left_append_substr (mem : Mem) (s : stref) (n : Nat) (h : n ≤ s.len) :
    (left s n).chars mem ++ (substr_from s n).chars mem = s.chars mem ∧
    (left s n).len + (substr_from s n).len = s.len := by
  rw [left_of_le s n h]
  unfold substr_from
  by_cases hn : n ≥ s.len
  · have he : n = s.len := by omega
    rw [if_pos hn]
    subst he
    constructor
    · simp [stref.chars]
    · rfl
  · rw [if_neg hn]
    constructor
    · rw [chars_append]
      cases s with
      | mk r l =>
        simp only at h hn ⊢
        congr 2
        omega
    · simp only
      omega

/-- Witness of C12 on the view "abcde" cut at `n = 2`. -/
theorem left_append_substr_witness :
    (left ⟨0, 5⟩ 2).chars (mem_of [97, 98, 99, 100, 101])
        ++ (substr_from ⟨0, 5⟩ 2).chars (mem_of [97, 98, 99, 100, 101])
      = (⟨0, 5⟩ : stref).chars (mem_of [97, 98, 99, 100, 101]) ∧
    (left ⟨0, 5⟩ 2).len + (substr_from ⟨0, 5⟩ 2).len = (⟨0, 5⟩ : stref).len :=
  left_append_substr (mem_of [97, 98, 99, 100, 101]) ⟨0, 5⟩ 2 (by decide)


theorem middle_of_pos (s : stref) (from_ to_ : Nat) (hpos : 0 < s.len) (hlen : s.len < 2 ^ 64) :
    middle s from_ to_ =
      if from_ > min to_ (s.len - 1) then ⟨s.ref, 0⟩
      else ⟨s.ref + from_, min to_ (s.len - 1) - from_ + 1⟩ := by
  have hsub : size_sub s.len 1 = s.len - 1 := by
    unfold size_sub
    omega
  have hclamp : (if to_ ≥ s.len then size_sub s.len 1 else to_) = min to_ (s.len - 1) := by
    rw [hsub]
    split <;> omega
  have hmod : (min to_ (s.len - 1) - from_ + 1) % 2 ^ 64 = min to_ (s.len - 1) - from_ + 1 :=
    Nat.mod_eq_of_lt (by omega)
  simp only [middle, hclamp, hmod]

/-- C13, failing input. The empty view with `from = 1` and `to = 0`: `to` is clamped to
`len - 1`, which wraps to `2^64 - 1`, and `middle` returns a view of `2^64 - 1` characters that
starts one character past the pointer of the empty view. -/
theorem middle_of_empty_view :
    middle ⟨0, 0⟩ 1 0 = ⟨1, 2 ^ 64 - 1⟩ ∧ size_sub (⟨0, 0⟩ : stref).len 1 = 2 ^ 64 - 1 := by
  decide

/-! ## Checked access: `front`, `back`, `at` -/

/-- C19. For every view: `front()` and `back()` throw exactly when `length() == 0`; on a
non-empty view `front()` returns `s[0]` and `back()` returns `s[length() - 1]`. -/
theorem front_back_spec (mem : Mem) (s : stref) :
    ((∃ e, front mem s = .error e) ↔ s.len = 0) ∧
    ((∃ e, back mem s = .error e) ↔ s.len = 0) ∧
    (0 < s.len →
      front mem s = .ok (s.nth mem 0) ∧ back mem s = .ok (s.nth mem (s.len - 1))) := by
  unfold front back
  by_cases h : s.len = 0
  · simp [h]
  · simp only [h, if_false]
    refine ⟨by simp, by simp, fun _ => ⟨?_, rfl⟩⟩
    simp [_front, stref.nth]

/-- Witness of C19 on the view "abc". -/
theorem front_back_spec_witness :
    front (mem_of [97, 98, 99]) ⟨0, 3⟩ = .ok 97 ∧ back (mem_of [97, 98, 99]) ⟨0, 3⟩ = .ok 99 :=
  (front_back_spec (mem_of [97, 98, 99]) ⟨0, 3⟩).2.2 (by decide)

theorem to_size_of_nat (n : Nat) (h : n < 2 ^ 64) : to_size (n : Int) = n := by
  unfold to_size
  omega

theorem at_invalid_index_iff (s : stref) (index : Int) (hhi : index < 2 ^ 31) :
    at_invalid_index s index = true ↔ index < 0 ∨ index ≥ (s.len : Int) := by
  unfold at_invalid_index
  by_cases h : index < 0
  · simp [h]
  · have hn : to_size index = index.toNat := by
      unfold to_size
      omega
    simp only [h, decide_False, Bool.false_or, decide_eq_true_eq, false_or, hn]
    omega

/-- C20, failing input. The call `at(1)` on the view "abc": the test
`index < 0 || index >= length()` is false, so no exception is thrown and control reaches
`return _at[index];`, which subscripts the member function `_at` and is not a call of it. The
unchecked `operator[]`, which calls `_at(index)`, returns `b` there. -/
theorem at_test_passes_valid_index :
    at_invalid_index ⟨0, 3⟩ 1 = false ∧ op_index (mem_of [97, 98, 99]) ⟨0, 3⟩ 1 = 98 := by
  decide

/-! ## `find` -/

theorem find_of_first_match (mem : Mem) (match_ : Int → Bool) (s : stref) (start i : Nat)
    (hlen : s.len ≤ 2 ^ 31) (hstart : start ≤ i) (hi : i < s.len)
    (hm : match_ (s.nth mem i) = true)
    (hfirst : ∀ j, start ≤ j → j < i → match_ (s.nth mem j) = false) :
    find mem match_ s (start : Int) = (i : Int) := by
  obtain ⟨k, hk⟩ : ∃ k, i = start + k := ⟨i - start, by omega⟩
  obtain ⟨n, hn⟩ : ∃ n, s.len - start = k + (n + 1) := ⟨s.len - i - 1, by omega⟩
  have hs := find_loop_skip mem match_ s (n + 1) k start (fun j hj => by
    rw [to_int_of_lt (start + j) (by omega)]
    exact hfirst (start + j) (by omega) (by omega))
  rw [find, to_size_of_nat start (by omega), hn, hs, find_loop, ← hk,
    to_int_of_lt i (by omega)]
  have : match_ (_at mem s (i : Int)) = true := hm
  rw [if_pos this]

theorem find_of_no_match (mem : Mem) (match_ : Int → Bool) (s : stref) (start : Nat)
    (hlen : s.len ≤ 2 ^ 31) (hstart : start < 2 ^ 31)
    (hno : ∀ j, start ≤ j → j < s.len → match_ (s.nth mem j) = false) :
    find mem match_ s (start : Int) = npos := by
  have hs := find_loop_skip mem match_ s 0 (s.len - start) start (fun j hj => by
    rw [to_int_of_lt (start + j) (by omega)]
    exact hno (start + j) (by omega) (by omega))
  rw [find, to_size_of_nat start (by omega)]
  simp only [Nat.add_zero] at hs
  rw [hs, find_loop]

/-- C18, as amended. For every view of at most `2^31` characters, every predicate and every
`start >= 0`: when some index from `start` on satisfies the predicate, `find` returns the least
such index; otherwise, in particular when `start >= length()`, it returns `npos`, which is `-1`.
The character form is `find` with the predicate "equals `ch`". -/
theorem find_spec (mem : Mem) (match_ : Int → Bool) (s : stref) (start : Nat)
    (hstart : start < 2 ^ 31) (hlen : s.len ≤ 2 ^ 31) :
    (∀ i, start ≤ i → i < s.len → match_ (s.nth mem i) = true →
      (∀ j, start ≤ j → j < i → match_ (s.nth mem j) = false) →
      find mem match_ s (start : Int) = (i : Int)) ∧
    ((∀ j, start ≤ j → j < s.len → match_ (s.nth mem j) = false) →
      find mem match_ s (start : Int) = npos) ∧
    (s.len ≤ start → find mem match_ s (start : Int) = npos) ∧
    (∀ ch, find_ch mem ch s (start : Int) = find mem (fun c => c == ch) s (start : Int)) ∧
    npos = -1 :=
  ⟨fun i h1 h2 hm hfirst => find_of_first_match mem match_ s start i hlen h1 h2 hm hfirst,
   fun hno => find_of_no_match mem match_ s start hlen hstart hno,
   fun h => find_of_no_match mem match_ s start hlen hstart (fun j h1 h2 => by omega),
   fun _ => rfl, rfl⟩

/-- Witness of C18: on "abcde", `find('c')` is `2` and `find('x')` is `npos`. -/
theorem find_spec_witness :
    find (mem_of [97, 98, 99, 100, 101]) (chmatch 99) ⟨0, 5⟩ ((0 : Nat) : Int) = ((2 : Nat) : Int) ∧
    find (mem_of [97, 98, 99, 100, 101]) (chmatch 120) ⟨0, 5⟩ ((0 : Nat) : Int) = npos :=
  ⟨(find_spec (mem_of [97, 98, 99, 100, 101]) (chmatch 99) ⟨0, 5⟩ 0 (by decide) (by decide)).1 2
      (by decide) (by decide) (by decide) (by decide),
   (find_spec (mem_of [97, 98, 99, 100, 101]) (chmatch 120) ⟨0, 5⟩ 0 (by decide) (by decide)).2.1
      (by decide)⟩

/-- C18, counterexample. A view of `2^31 + 1` characters whose character at index `2^31`
satisfies the predicate, searched from `start = 2^31 - 1`: `find` returns `npos`. The loop passes
the `size_t` index `2^31` to `_at(int)`, which reads `ref[-2^31]`, and the index `2^31` is not a
value of the `int` that `find` returns. -/
theorem find_misses_index_2_31 :
    chmatch 1 ((⟨2 ^ 31, 2 ^ 31 + 1⟩ : stref).nth one_at_2_32 (2 ^ 31)) = true ∧
    chmatch 1 ((⟨2 ^ 31, 2 ^ 31 + 1⟩ : stref).nth one_at_2_32 (2 ^ 31 - 1)) = false ∧
    find one_at_2_32 (chmatch 1) ⟨2 ^ 31, 2 ^ 31 + 1⟩ (2 ^ 31 - 1) = npos := by
  decide


/-! ## `starts_with`, `ends_with` and their case-insensitive forms -/

theorem op_eq_iff_of_le (mem : Mem) (a b : stref) (ha : a.len ≤ 2 ^ 31) (hb : b.len ≤ 2 ^ 31) :
    op_eq mem a b = true ↔ same_chars mem a b := by
  unfold op_eq
  by_cases h1 : a.len = b.len
  · by_cases h2 : a.ref = b.ref
    · simp [h1, h2, same_chars_of_same_view mem a b h1 h2]
    · simp only [h1, ne_eq, not_true_eq_false, if_false, h2, beq_iff_eq]
      exact compare_eq_zero_iff_of_le mem a b ha hb
  · simp only [ne_eq, h1, not_false_eq_true, if_true]
    constructor
    · intro h; exact absurd h (by decide)
    · intro h; exact absurd h.1 h1

theorem icompare_eq_zero_iff_of_le (tt : traits) (mem : Mem) (a b : stref)
    (ha : a.len ≤ 2 ^ 31) (hb : b.len ≤ 2 ^ 31) :
    icompare tt mem a b = 0 ↔ same_chars (lowered tt mem) a b := by
  rw [icompare_eq_compare]
  exact compare_eq_zero_iff_of_le (lowered tt mem) a b ha hb

theorem right_of_le (s : stref) (n : Nat) (h : n ≤ s.len) (hn : n ≠ 0) :
    right s n = ⟨s.ref + ((s.len - n : Nat) : Int), n⟩ := by
  have hmin : min n s.len = n := by omega
  simp only [right, hmin]
  rw [substr_within s (s.len - n) n (by omega)]
  congr 1
  omega

theorem compare_wrapped_index :
    compare one_at_2_32 ⟨2 ^ 31, 2 ^ 31 + 1⟩ ⟨2 ^ 34, 2 ^ 31 + 1⟩ = 0 := by
  rw [compare_all_equal]
  · simp
  · intro j _
    have hl := to_int_lower (j : Int)
    have hu := to_int_upper (j : Int)
    simp only [_at, one_at_2_32]
    rw [if_neg (by omega), if_neg (by omega)]

theorem op_eq_wrapped_index :
    op_eq one_at_2_32 ⟨2 ^ 31, 2 ^ 31 + 1⟩ ⟨2 ^ 34, 2 ^ 31 + 1⟩ = true := by
  simp only [op_eq, compare_wrapped_index]
  simp

theorem nth_differs_at_2_31 :
    (⟨2 ^ 31, 2 ^ 31 + 1⟩ : stref).nth one_at_2_32 (2 ^ 31)
      ≠ (⟨2 ^ 34, 2 ^ 31 + 1⟩ : stref).nth one_at_2_32 (2 ^ 31) := by
  decide

/-- C16, as amended. For every view `s` and every view `p` of at most `2^31` characters:
`starts_with` is true exactly when `p` is not longer than `s` and `s[i] = p[i]` for every
`i < length(p)`; `istarts_with` is true exactly when `p` is not longer than `s` and the
lower-cased `s[i]` and `p[i]` are equal for every `i < length(p)`. Both are true when `p` is
empty. -/
theorem starts_with_spec (tt : traits) (mem : Mem) (s p : stref) (hp : p.len ≤ 2 ^ 31) :
    (starts_with mem s p = true ↔
      p.len ≤ s.len ∧ ∀ i, i < p.len → s.nth mem i = p.nth mem i) ∧
    (istarts_with tt mem s p = true ↔
      p.len ≤ s.len ∧ ∀ i, i < p.len →
        tt.to_lower_case (s.nth mem i) = tt.to_lower_case (p.nth mem i)) ∧
    (p.len = 0 → starts_with mem s p = true ∧ istarts_with tt mem s p = true) := by
  unfold starts_with istarts_with
  by_cases h0 : p.len = 0
  · simp [h0]
  · by_cases hlt : s.len < p.len
    · simp only [h0, if_false, hlt, if_true]
      refine ⟨?_, ?_, fun h => h.elim⟩ <;>
        exact ⟨fun h => absurd h (by decide), fun h => absurd h.1 (by omega)⟩
    · simp only [h0, if_false, hlt, beq_iff_eq]
      rw [left_of_le s p.len (by omega),
        op_eq_iff_of_le mem ⟨s.ref, p.len⟩ p (by simpa using hp) hp,
        icompare_eq_zero_iff_of_le tt mem ⟨s.ref, p.len⟩ p (by simpa using hp) hp]
      refine ⟨?_, ?_, fun h => h.elim⟩
      · exact ⟨fun h => ⟨by omega, h.2⟩, fun h => ⟨rfl, h.2⟩⟩
      · exact ⟨fun h => ⟨by omega, h.2⟩, fun h => ⟨rfl, h.2⟩⟩

/-- Witness of C16: "hello" starts with "HEL" when case is ignored, and not otherwise. -/
theorem starts_with_spec_witness :
    (starts_with (mem_of [104, 101, 108, 108, 111, 0, 72, 69, 76]) ⟨0, 5⟩ ⟨6, 3⟩ = true ↔
      (3 : Nat) ≤ 5 ∧ ∀ i, i < 3 →
        (⟨0, 5⟩ : stref).nth (mem_of [104, 101, 108, 108, 111, 0, 72, 69, 76]) i
          = (⟨6, 3⟩ : stref).nth (mem_of [104, 101, 108, 108, 111, 0, 72, 69, 76]) i) ∧
    istarts_with char_traits (mem_of [104, 101, 108, 108, 111, 0, 72, 69, 76]) ⟨0, 5⟩ ⟨6, 3⟩
      = true :=
  ⟨(starts_with_spec char_traits (mem_of [104, 101, 108, 108, 111, 0, 72, 69, 76])
      ⟨0, 5⟩ ⟨6, 3⟩ (by decide)).1,
   (starts_with_spec char_traits (mem_of [104, 101, 108, 108, 111, 0, 72, 69, 76])
      ⟨0, 5⟩ ⟨6, 3⟩ (by decide)).2.1.mpr (by decide)⟩

/-- C16, counterexample. Two views of `2^31 + 1` characters that differ at index `2^31`:
`starts_with` is true. The comparison passes the `size_t` index `2^31` to `_at(int)`, which
reads `ref[-2^31]` in both views. -/
theorem starts_with_of_differing_prefix :
    starts_with one_at_2_32 ⟨2 ^ 31, 2 ^ 31 + 1⟩ ⟨2 ^ 34, 2 ^ 31 + 1⟩ = true ∧
    (⟨2 ^ 31, 2 ^ 31 + 1⟩ : stref).nth one_at_2_32 (2 ^ 31)
      ≠ (⟨2 ^ 34, 2 ^ 31 + 1⟩ : stref).nth one_at_2_32 (2 ^ 31) := by
  refine ⟨?_, nth_differs_at_2_31⟩
  have hl : left ⟨2 ^ 31, 2 ^ 31 + 1⟩ (⟨2 ^ 34, 2 ^ 31 + 1⟩ : stref).len = ⟨2 ^ 31, 2 ^ 31 + 1⟩ := by
    decide
  unfold starts_with
  rw [if_neg (by decide), if_neg (by decide), hl]
  exact op_eq_wrapped_index

/-- C17, as amended. For every view `s` and every view `x` of at most `2^31` characters, with
`d = length(s) - length(x)`: `ends_with` is true exactly when `x` is not longer than `s` and
`s[d + i] = x[i]` for every `i < length(x)`; `iends_with` is true exactly when `x` is not longer
than `s` and the lower-cased `s[d + i]` and `x[i]` are equal for every `i < length(x)`. Both are
true when `x` is empty. -/
theorem ends_with_spec (tt : traits) (mem : Mem) (s x : stref) (hx : x.len ≤ 2 ^ 31) :
    (ends_with mem s x = true ↔
      x.len ≤ s.len ∧ ∀ i, i < x.len → s.nth mem (s.len - x.len + i) = x.nth mem i) ∧
    (iends_with tt mem s x = true ↔
      x.len ≤ s.len ∧ ∀ i, i < x.len →
        tt.to_lower_case (s.nth mem (s.len - x.len + i)) = tt.to_lower_case (x.nth mem i)) ∧
    (x.len = 0 → ends_with mem s x = true ∧ iends_with tt mem s x = true) := by
  unfold ends_with iends_with
  by_cases h0 : x.len = 0
  · simp [h0]
  · by_cases hlt : s.len < x.len
    · simp only [h0, if_false, hlt, if_true]
      refine ⟨?_, ?_, fun h => h.elim⟩ <;>
        exact ⟨fun h => absurd h (by decide), fun h => absurd h.1 (by omega)⟩
    · have hnth : ∀ (m : Mem) (i : Nat),
          (⟨s.ref + ((s.len - x.len : Nat) : Int), x.len⟩ : stref).nth m i
            = s.nth m (s.len - x.len + i) := by
        intro m i
        simp only [stref.nth]
        congr 1
        push_cast
        ring
      simp only [h0, if_false, hlt, beq_iff_eq]
      rw [right_of_le s x.len (by omega) h0,
        op_eq_iff_of_le mem _ x (by simpa using hx) hx,
        icompare_eq_zero_iff_of_le tt mem _ x (by simpa using hx) hx]
      refine ⟨?_, ?_, fun h => h.elim⟩
      · constructor
        · intro h
          exact ⟨by omega, fun i hi => by rw [← hnth]; exact h.2 i hi⟩
        · intro h
          exact ⟨rfl, fun i hi => by rw [hnth]; exact h.2 i hi⟩
      · constructor
        · intro h
          refine ⟨by omega, fun i hi => ?_⟩
          have := h.2 i hi
          rw [hnth] at this
          exact this
        · intro h
          refine ⟨rfl, fun i hi => ?_⟩
          rw [hnth]
          exact h.2 i hi

/-- Witness of C17: "HELLO" ends with "Lo" when case is ignored. -/
theorem ends_with_spec_witness :
    (ends_with (mem_of [72, 69, 76, 76, 79, 0, 76, 111]) ⟨0, 5⟩ ⟨6, 2⟩ = true ↔
      (2 : Nat) ≤ 5 ∧ ∀ i, i < 2 →
        (⟨0, 5⟩ : stref).nth (mem_of [72, 69, 76, 76, 79, 0, 76, 111]) (5 - 2 + i)
          = (⟨6, 2⟩ : stref).nth (mem_of [72, 69, 76, 76, 79, 0, 76, 111]) i) ∧
    iends_with char_traits (mem_of [72, 69, 76, 76, 79, 0, 76, 111]) ⟨0, 5⟩ ⟨6, 2⟩ = true :=
  ⟨(ends_with_spec char_traits (mem_of [72, 69, 76, 76, 79, 0, 76, 111])
      ⟨0, 5⟩ ⟨6, 2⟩ (by decide)).1,
   (ends_with_spec char_traits (mem_of [72, 69, 76, 76, 79, 0, 76, 111])
      ⟨0, 5⟩ ⟨6, 2⟩ (by decide)).2.1.mpr (by decide)⟩

/-- C17, counterexample. Two views of `2^31 + 1` characters that differ at index `2^31`:
`ends_with` is true. The comparison passes the `size_t` index `2^31` to `_at(int)`, which reads
`ref[-2^31]` in both views. -/
theorem ends_with_of_differing_suffix :
    ends_with one_at_2_32 ⟨2 ^ 31, 2 ^ 31 + 1⟩ ⟨2 ^ 34, 2 ^ 31 + 1⟩ = true ∧
    (⟨2 ^ 31, 2 ^ 31 + 1⟩ : stref).nth one_at_2_32 ((2 ^ 31 + 1) - (2 ^ 31 + 1) + 2 ^ 31)
      ≠ (⟨2 ^ 34, 2 ^ 31 + 1⟩ : stref).nth one_at_2_32 (2 ^ 31) := by
  refine ⟨?_, by decide⟩
  have hr : right ⟨2 ^ 31, 2 ^ 31 + 1⟩ (⟨2 ^ 34, 2 ^ 31 + 1⟩ : stref).len = ⟨2 ^ 31, 2 ^ 31 + 1⟩ := by
    decide
  unfold ends_with
  rw [if_neg (by decide), if_neg (by decide), hr]
  exact op_eq_wrapped_index


/-! ## `trim_left`, `trim_right`, `trim` -/

theorem nth_shift (mem : Mem) (r : Int) (k l i : Nat) :
    (⟨r + (k : Int), l⟩ : stref).nth mem i = (⟨r, k + l⟩ : stref).nth mem (k + i) := by
  simp only [stref.nth]
  congr 1
  push_cast
  ring

theorem trim_left_loop_spec (tt : traits) (mem : Mem) :
    ∀ (n : Nat) (s : stref), s.len ≤ n →
      ∃ k, k ≤ s.len ∧ trim_left_loop tt mem n s = ⟨s.ref + (k : Int), s.len - k⟩ ∧
        (∀ i, i < k → tt.is_whitespace (s.nth mem i) = true) ∧
        (k < s.len → tt.is_whitespace (s.nth mem k) = false) := by
  intro n
  induction n with
  | zero =>
    intro s hs
    refine ⟨0, Nat.zero_le _, ?_, fun i hi => absurd hi (Nat.not_lt_zero i), fun h => by omega⟩
    cases s
    simp [trim_left_loop]
  | succ n ih =>
    intro s hs
    rw [trim_left_loop]
    by_cases hg : s.len > 0 ∧ tt.is_whitespace (_front mem s) = true
    · rw [if_pos hg]
      obtain ⟨k, hk, hres, hws, hnw⟩ := ih ⟨s.ref + 1, s.len - 1⟩ (by simp only; omega)
      simp only at hk hres hnw
      refine ⟨k + 1, by omega, ?_, ?_, ?_⟩
      · rw [hres]
        congr 1
        · push_cast
          ring
        · omega
      · intro i hi
        rcases i with _ | j
        · simpa [_front, stref.nth] using hg.2
        · have := hws j (by omega)
          simp only [stref.nth] at this ⊢
          rw [show s.ref + ((j + 1 : Nat) : Int) = s.ref + 1 + (j : Int) by push_cast; ring]
          exact this
      · intro hlt
        have := hnw (by omega)
        simp only [stref.nth] at this ⊢
        rw [show s.ref + ((k + 1 : Nat) : Int) = s.ref + 1 + (k : Int) by push_cast; ring]
        exact this
    · rw [if_neg hg]
      refine ⟨0, Nat.zero_le _, ?_, fun i hi => absurd hi (Nat.not_lt_zero i), fun hpos => ?_⟩
      · cases s
        simp
      · have hne : ¬ tt.is_whitespace (_front mem s) = true := fun h => hg ⟨hpos, h⟩
        simpa [_front, stref.nth] using hne

theorem trim_right_loop_spec (tt : traits) (mem : Mem) :
    ∀ (n : Nat) (s : stref), s.len ≤ n →
      ∃ k, k ≤ s.len ∧ trim_right_loop tt mem n s = ⟨s.ref, k⟩ ∧
        (∀ i, k ≤ i → i < s.len → tt.is_whitespace (s.nth mem i) = true) ∧
        (0 < k → tt.is_whitespace (s.nth mem (k - 1)) = false) := by
  intro n
  induction n with
  | zero =>
    intro s hs
    refine ⟨0, Nat.zero_le _, ?_, fun i _ hi => by omega, fun h => by omega⟩
    cases s
    simp only [trim_right_loop, stref.mk.injEq, true_and]
    simpa using hs
  | succ n ih =>
    intro s hs
    rw [trim_right_loop]
    by_cases hg : s.len > 0 ∧ tt.is_whitespace (_back mem s) = true
    · rw [if_pos hg]
      obtain ⟨k, hk, hres, hws, hnw⟩ := ih ⟨s.ref, s.len - 1⟩ (by simp only; omega)
      simp only at hk hres
      refine ⟨k, by omega, hres, ?_, hnw⟩
      intro i hki hi
      by_cases hlast : i = s.len - 1
      · rw [hlast]
        exact hg.2
      · exact hws i hki (by simp only; omega)
    · rw [if_neg hg]
      refine ⟨s.len, le_refl _, rfl, fun i h1 h2 => by omega, fun hpos => ?_⟩
      have hne : ¬ tt.is_whitespace (_back mem s) = true := fun h => hg ⟨hpos, h⟩
      simpa [_back, stref.nth] using hne

theorem trim_left_eq (tt : traits) (mem : Mem) (s : stref) (k : Nat) (hk : k ≤ s.len)
    (hws : ∀ i, i < k → tt.is_whitespace (s.nth mem i) = true)
    (hnw : k < s.len → tt.is_whitespace (s.nth mem k) = false) :
    trim_left tt mem s = ⟨s.ref + (k : Int), s.len - k⟩ := by
  obtain ⟨k0, hk0, hres, hws0, hnw0⟩ := trim_left_loop_spec tt mem s.len s (le_refl _)
  have hkk : k0 = k := by
    rcases lt_trichotomy k0 k with h | h | h
    · have h1 := hws k0 h
      have h2 := hnw0 (by omega)
      rw [h1] at h2
      exact absurd h2 (by decide)
    · exact h
    · have h1 := hws0 k h
      have h2 := hnw (by omega)
      rw [h1] at h2
      exact absurd h2 (by decide)
  rw [trim_left, hres, hkk]

theorem trim_right_eq (tt : traits) (mem : Mem) (s : stref) (k : Nat) (hk : k ≤ s.len)
    (hws : ∀ i, k ≤ i → i < s.len → tt.is_whitespace (s.nth mem i) = true)
    (hnw : 0 < k → tt.is_whitespace (s.nth mem (k - 1)) = false) :
    trim_right tt mem s = ⟨s.ref, k⟩ := by
  obtain ⟨k0, hk0, hres, hws0, hnw0⟩ := trim_right_loop_spec tt mem s.len s (le_refl _)
  have hkk : k0 = k := by
    rcases lt_trichotomy k0 k with h | h | h
    · have h1 := hws0 (k - 1) (by omega) (by omega)
      have h2 := hnw (by omega)
      rw [h1] at h2
      exact absurd h2 (by decide)
    · exact h
    · have h1 := hws (k0 - 1) (by omega) (by omega)
      have h2 := hnw0 (by omega)
      rw [h1] at h2
      exact absurd h2 (by decide)
  rw [trim_right, hres, hkk]


theorem op_eq_of_empty (mem : Mem) (a b : stref) (ha : a.len = 0) (hb : b.len = 0) :
    op_eq mem a b = true := by
  unfold op_eq
  by_cases h : a.ref = b.ref
  · simp [ha, hb, h]
  · simp [ha, hb, h, compare, compare_loop]

theorem trim_left_trim_right (tt : traits) (mem : Mem) (s : stref) :
    (trim_right tt mem (trim_left tt mem s) = trim_left tt mem (trim_right tt mem s)) ∨
    ((trim_right tt mem (trim_left tt mem s)).len = 0 ∧
      (trim_left tt mem (trim_right tt mem s)).len = 0) := by
  obtain ⟨k, hk, hl, hlws, hlnw⟩ := trim_left_loop_spec tt mem s.len s (le_refl _)
  obtain ⟨k', hk', hr, hrws, hrnw⟩ := trim_right_loop_spec tt mem s.len s (le_refl _)
  have hl' : trim_left tt mem s = ⟨s.ref + (k : Int), s.len - k⟩ := hl
  have hr' : trim_right tt mem s = ⟨s.ref, k'⟩ := hr
  have hnth : ∀ (l i : Nat), (⟨s.ref, l⟩ : stref).nth mem i = s.nth mem i := fun _ _ => rfl
  by_cases hall : k = s.len
  · right
    have hk0 : k' = 0 := by
      by_contra hne
      have h1 := hlws (k' - 1) (by omega)
      have h2 := hrnw (by omega)
      rw [h1] at h2
      exact absurd h2 (by decide)
    rw [hl', hr', hk0, hall]
    constructor
    · rw [trim_right_eq tt mem ⟨s.ref + (s.len : Int), s.len - s.len⟩ 0 (Nat.zero_le _)
        (fun i _ hi => by simp only at hi; omega) (fun h => by omega)]
    · rw [trim_left_eq tt mem ⟨s.ref, 0⟩ 0 (Nat.zero_le _)
        (fun i hi => by omega) (fun h => by simp only at h; omega)]
      rfl
  · left
    have hklt : k < s.len := by omega
    have hkk' : k < k' := by
      by_contra hge
      have h1 := hrws k (by omega) hklt
      have h2 := hlnw hklt
      rw [h1] at h2
      exact absurd h2 (by decide)
    have hsplit : ∀ i, (⟨s.ref + (k : Int), s.len - k⟩ : stref).nth mem i = s.nth mem (k + i) :=
      fun i => by rw [nth_shift]; rfl
    rw [hl', hr']
    rw [trim_right_eq tt mem ⟨s.ref + (k : Int), s.len - k⟩ (k' - k) (by simp only; omega)
        (fun i h1 h2 => by
          rw [hsplit]
          simp only at h2
          exact hrws (k + i) (by omega) (by omega))
        (fun h => by
          rw [hsplit, show k + (k' - k - 1) = k' - 1 by omega]
          exact hrnw (by omega)),
      trim_left_eq tt mem ⟨s.ref, k'⟩ k (by simp only; omega)
        (fun i hi => by rw [hnth]; exact hlws i hi)
        (fun _ => by rw [hnth]; exact hlnw hklt)]

/-- C14. For every view and every whitespace classification, `trim()` is `==` to
`trim_right().trim_left()` and to `trim_left().trim_right()`; this covers the empty view and
views of whitespace only, where the two orders give empty views at different pointers. -/
theorem trim_commutes (tt : traits) (mem : Mem) (s : stref) :
    op_eq mem (trim tt mem s) (trim_left tt mem (trim_right tt mem s)) = true ∧
    op_eq mem (trim tt mem s) (trim_right tt mem (trim_left tt mem s)) = true ∧
    same_chars mem (trim tt mem s) (trim_left tt mem (trim_right tt mem s)) := by
  refine ⟨?_, op_eq_self mem _, ?_⟩
  · rcases trim_left_trim_right tt mem s with h | ⟨h1, h2⟩
    · rw [trim, h]
      exact op_eq_self mem _
    · exact op_eq_of_empty mem _ _ h1 h2
  · rcases trim_left_trim_right tt mem s with h | ⟨h1, h2⟩
    · rw [trim, h]
      exact ⟨rfl, fun _ _ => rfl⟩
    · refine ⟨by rw [trim, h1, h2], fun i hi => ?_⟩
      rw [trim, h1] at hi
      omega

/-- C15. For every view: `trim_left()` is the suffix of `s` that starts at the first character
not classified as whitespace, at index `k` (with `k = length()`, the empty view, when every
character is whitespace); `trim_right()` is the prefix of `s` that ends with the last character
not classified as whitespace. Every character removed is whitespace, the result of `trim_left`
does not begin with whitespace and the result of `trim_right` does not end with whitespace. -/
theorem trim_spec (tt : traits) (mem : Mem) (s : stref) :
    (∃ k, k ≤ s.len ∧ trim_left tt mem s = ⟨s.ref + (k : Int), s.len - k⟩ ∧
      (∀ i, i < k → tt.is_whitespace (s.nth mem i) = true) ∧
      (k < s.len → tt.is_whitespace (s.nth mem k) = false)) ∧
    (∃ k, k ≤ s.len ∧ trim_right tt mem s = ⟨s.ref, k⟩ ∧
      (∀ i, k ≤ i → i < s.len → tt.is_whitespace (s.nth mem i) = true) ∧
      (0 < k → tt.is_whitespace (s.nth mem (k - 1)) = false)) ∧
    (0 < (trim_left tt mem s).len →
      tt.is_whitespace ((trim_left tt mem s).nth mem 0) = false) ∧
    (0 < (trim_right tt mem s).len →
      tt.is_whitespace ((trim_right tt mem s).nth mem ((trim_right tt mem s).len - 1))
        = false) := by
  obtain ⟨k, hk, hl, hlws, hlnw⟩ := trim_left_loop_spec tt mem s.len s (le_refl _)
  obtain ⟨k', hk', hr, hrws, hrnw⟩ := trim_right_loop_spec tt mem s.len s (le_refl _)
  have hl' : trim_left tt mem s = ⟨s.ref + (k : Int), s.len - k⟩ := hl
  have hr' : trim_right tt mem s = ⟨s.ref, k'⟩ := hr
  refine ⟨⟨k, hk, hl', hlws, hlnw⟩, ⟨k', hk', hr', hrws, hrnw⟩, ?_, ?_⟩
  · rw [hl']
    intro hpos
    simp only at hpos
    have := hlnw (by omega)
    simpa [stref.nth] using this
  · rw [hr']
    intro hpos
    exact hrnw hpos

/-- Witness of C15 on the view "  x ": `trim_left` gives "x ", which begins with `x`, and
`trim_right` gives "  x", which ends with `x`. -/
theorem trim_spec_witness :
    char_traits.is_whitespace
        ((trim_left char_traits (mem_of [32, 32, 120, 32]) ⟨0, 4⟩).nth
          (mem_of [32, 32, 120, 32]) 0) = false ∧
    char_traits.is_whitespace
        ((trim_right char_traits (mem_of [32, 32, 120, 32]) ⟨0, 4⟩).nth
          (mem_of [32, 32, 120, 32])
          ((trim_right char_traits (mem_of [32, 32, 120, 32]) ⟨0, 4⟩).len - 1)) = false :=
  ⟨(trim_spec char_traits (mem_of [32, 32, 120, 32]) ⟨0, 4⟩).2.2.1 (by decide),
   (trim_spec char_traits (mem_of [32, 32, 120, 32]) ⟨0, 4⟩).2.2.2 (by decide)⟩


/-! ## `each`, `each_reverse` -/

theorem each_loop_eq (mem : Mem) (s : stref) :
    ∀ (n i : Nat), each_loop mem s n i = (List.range' i n).map (fun j => s.nth mem j) := by
  intro n
  induction n with
  | zero => intro i; rfl
  | succ n ih =>
    intro i
    rw [each_loop, ih (i + 1), List.range'_succ]
    rfl

theorem each_reverse_loop_eq (mem : Mem) (s : stref) :
    ∀ (i : Nat), each_reverse_loop mem s i
      = ((List.range i).map (fun j => s.nth mem j)).reverse := by
  intro i
  induction i with
  | zero => rfl
  | succ i ih =>
    rw [each_reverse_loop, ih, List.range_succ, List.map_append, List.reverse_append]
    rfl

/-- C21. For every view, `each` calls `body` exactly `length()` times, with the characters
`s[0], ..., s[length() - 1]` in that order, and `each_reverse` calls `body` with the reverse of
that sequence. -/
theorem each_spec (mem : Mem) (s : stref) :
    each mem s = s.chars mem ∧
    (each mem s).length = s.len ∧
    each_reverse mem s = (s.chars mem).reverse := by
  have h1 : each mem s = s.chars mem := by
    rw [each, each_loop_eq, stref.chars, List.range_eq_range']
  refine ⟨h1, ?_, ?_⟩
  · rw [h1]
    simp [stref.chars]
  · rw [each_reverse, each_reverse_loop_eq, stref.chars]


/-! ## The calls of `body` made by `split` -/

theorem to_int_of_range (x : Int) (hlo : -(2 ^ 31) ≤ x) (hhi : x < 2 ^ 31) : to_int x = x := by
  unfold to_int
  omega

theorem match_indices_nil (mem : Mem) (match_ : Int → Bool) (s : stref) (start : Nat)
    (hno : ∀ j, start ≤ j → j < s.len → match_ (s.nth mem j) = false) :
    match_indices mem match_ s start = [] := by
  rw [match_indices, List.filter_eq_nil_iff]
  intro a ha
  rw [List.mem_range'_1] at ha
  rw [hno a ha.1 (by omega)]
  decide

theorem match_indices_cons (mem : Mem) (match_ : Int → Bool) (s : stref) (start i : Nat)
    (hstart : start ≤ i) (hi : i < s.len) (hm : match_ (s.nth mem i) = true)
    (hfirst : ∀ j, start ≤ j → j < i → match_ (s.nth mem j) = false) :
    match_indices mem match_ s start = i :: match_indices mem match_ s (i + 1) := by
  have hsplit : List.range' start (s.len - start)
      = List.range' start (i - start) ++ i :: List.range' (i + 1) (s.len - (i + 1)) := by
    rw [show s.len - start = ((s.len - (i + 1)) + 1) + (i - start) by omega,
      ← List.range'_append_1, show start + (i - start) = i by omega, List.range'_succ]
  have hnil : (List.range' start (i - start)).filter (fun j => match_ (s.nth mem j)) = [] := by
    rw [List.filter_eq_nil_iff]
    intro a ha
    rw [List.mem_range'_1] at ha
    rw [hfirst a ha.1 (by omega)]
    decide
  rw [match_indices, hsplit, List.filter_append, hnil, List.nil_append, List.filter_cons]
  simp only [hm, if_true]
  rfl

theorem split_segments_length (s : stref) :
    ∀ (l : List Nat) (start : Nat), (split_segments s start l).length = l.length + 1 := by
  intro l
  induction l with
  | nil => intro start; rfl
  | cons i rest ih =>
    intro start
    simp [split_segments, ih]

theorem match_indices_length (mem : Mem) (match_ : Int → Bool) (s : stref) :
    (match_indices mem match_ s 0).length = ((s.chars mem).filter match_).length := by
  rw [match_indices, stref.chars, List.filter_map, List.length_map, List.range_eq_range',
    Nat.sub_zero]
  rfl

theorem split_loop_spec (mem : Mem) (match_ : Int → Bool) (s : stref) (hlen : s.len < 2 ^ 31) :
    ∀ (fuel start : Nat), start ≤ s.len →
      (match_indices mem match_ s start).length < fuel →
      split_loop mem match_ s fuel (start : Int) (find mem match_ s (start : Int))
        = some (split_segments s start (match_indices mem match_ s start)) := by
  intro fuel
  induction fuel with
  | zero => intro start _ h; exact absurd h (Nat.not_lt_zero _)
  | succ fuel ih =>
    intro start hstart hfuel
    have hsz : to_size (start : Int) = start := to_size_of_nat start (by omega)
    by_cases hex : ∃ i, start ≤ i ∧ i < s.len ∧ match_ (s.nth mem i) = true
    · classical
      have hi := Nat.find_spec hex
      have hfirst : ∀ j, start ≤ j → j < Nat.find hex → match_ (s.nth mem j) = false := by
        intro j h1 h2
        by_contra hne
        exact Nat.find_min hex h2 ⟨h1, by omega, by simpa using hne⟩
      have hcons := match_indices_cons mem match_ s start (Nat.find hex) hi.1 hi.2.1 hi.2.2 hfirst
      have hfind := find_of_first_match mem match_ s start (Nat.find hex) (by omega) hi.1 hi.2.1
        hi.2.2 hfirst
      have hne : ((Nat.find hex : Nat) : Int) ≠ npos := by
        unfold npos
        omega
      have h1 : to_int (((Nat.find hex : Nat) : Int) - 1) = ((Nat.find hex : Nat) : Int) - 1 :=
        to_int_of_range _ (by omega) (by omega)
      have h2 : to_int (((Nat.find hex : Nat) : Int) + 1) = ((Nat.find hex + 1 : Nat) : Int) := by
        rw [to_int_of_range _ (by omega) (by omega)]
        push_cast
        rfl
      rw [hfind, split_loop, if_pos hne]
      simp only [h1, h2, hsz]
      rw [hcons] at hfuel ⊢
      rw [ih (Nat.find hex + 1) (by omega) (by simpa using hfuel)]
      rfl
    · have hno : ∀ j, start ≤ j → j < s.len → match_ (s.nth mem j) = false := by
        intro j h1 h2
        by_contra hne
        exact hex ⟨j, h1, h2, by simpa using hne⟩
      rw [find_of_no_match mem match_ s start (by omega) (by omega) hno, split_loop,
        if_neg (by simp), match_indices_nil mem match_ s start hno, hsz]
      rfl

theorem split_eq_split_segments (mem : Mem) (match_ : Int → Bool) (s : stref)
    (hlen : s.len < 2 ^ 31) (fuel : Nat) (hfuel : ((s.chars mem).filter match_).length < fuel) :
    split mem match_ s fuel = some (split_segments s 0 (match_indices mem match_ s 0)) := by
  have h := split_loop_spec mem match_ s hlen fuel 0 (Nat.zero_le _)
    (by rw [match_indices_length]; exact hfuel)
  simpa [split] using h


/-- C22, as amended. For every view of fewer than `2^31` characters and every predicate, `split`
terminates: with `k` the number of characters of the view that match, any fuel above `k` suffices
and `body` is called exactly `k + 1` times. The segments are those that the matching indices
`i_1 < ... < i_k` cut: each `i_j` ends the segment `middle(start, i_j - 1)`, the search resumes
at `i_j + 1`, and the last segment is `substr(start)`. -/
theorem split_calls (mem : Mem) (match_ : Int → Bool) (s : stref) (hlen : s.len < 2 ^ 31)
    (fuel : Nat) (hfuel : ((s.chars mem).filter match_).length < fuel) :
    ∃ segs, split mem match_ s fuel = some segs ∧
      segs.length = ((s.chars mem).filter match_).length + 1 ∧
      segs = split_segments s 0 (match_indices mem match_ s 0) :=
  ⟨split_segments s 0 (match_indices mem match_ s 0),
   split_eq_split_segments mem match_ s hlen fuel hfuel,
   by rw [split_segments_length, match_indices_length],
   rfl⟩

/-- Witness of C22 as amended, on the view "a,comma,separated,list" split at commas: four calls
of `body`, with "a", "comma", "separated" and "list". -/
theorem split_calls_witness :
    ∃ segs,
      split (mem_of [97, 44, 99, 111, 109, 109, 97, 44, 115, 101, 112, 97, 114, 97, 116, 101, 100,
          44, 108, 105, 115, 116]) (chmatch 44) ⟨0, 22⟩ 4 = some segs ∧
      segs.length = ((stref.chars (mem_of [97, 44, 99, 111, 109, 109, 97, 44, 115, 101, 112, 97,
          114, 97, 116, 101, 100, 44, 108, 105, 115, 116]) ⟨0, 22⟩).filter (chmatch 44)).length
            + 1 ∧
      segs = split_segments ⟨0, 22⟩ 0 (match_indices (mem_of [97, 44, 99, 111, 109, 109, 97, 44,
          115, 101, 112, 97, 114, 97, 116, 101, 100, 44, 108, 105, 115, 116]) (chmatch 44)
          ⟨0, 22⟩ 0) :=
  split_calls (mem_of [97, 44, 99, 111, 109, 109, 97, 44, 115, 101, 112, 97, 114, 97, 116, 101,
    100, 44, 108, 105, 115, 116]) (chmatch 44) ⟨0, 22⟩ (by decide) 4 (by decide)

theorem no_comma_in_wrapped_view :
    (((⟨2 ^ 31, 2 ^ 31 + 2⟩ : stref).chars comma_at_1).filter (chmatch 44)).length = 0 := by
  rw [List.length_eq_zero, List.filter_eq_nil_iff]
  intro a ha
  simp only [stref.chars, List.mem_map, List.mem_range] at ha
  obtain ⟨i, _, rfl⟩ := ha
  simp only [stref.nth, comma_at_1]
  rw [if_neg (by omega)]
  decide

theorem find_comma_at_3_from_0 :
    find comma_at_3 (chmatch 44) ⟨2 ^ 31, 2 ^ 32 + 4⟩ 0 = 3 := by
  have hs := find_loop_skip comma_at_3 (chmatch 44) ⟨2 ^ 31, 2 ^ 32 + 4⟩ (2 ^ 32 + 1) 3 0
    (fun j hj => by
      have hne : to_int ((0 + j : Nat) : Int) ≠ 3 := by
        unfold to_int
        omega
      simp only [_at, comma_at_3, chmatch]
      rw [if_neg (by omega)]
      rfl)
  have hlen : (⟨2 ^ 31, 2 ^ 32 + 4⟩ : stref).len = 3 + (2 ^ 32 + 1) := by norm_num
  rw [find, to_size_zero, Nat.sub_zero, hlen, hs, find_loop]
  have h1 : to_int (((0 + 3 : Nat)) : Int) = 3 := by decide
  rw [h1]
  rfl

theorem find_comma_at_3_from_4 :
    find comma_at_3 (chmatch 44) ⟨2 ^ 31, 2 ^ 32 + 4⟩ 4 = 3 := by
  have hs := find_loop_skip comma_at_3 (chmatch 44) ⟨2 ^ 31, 2 ^ 32 + 4⟩ 1 (2 ^ 32 - 1) 4
    (fun j hj => by
      have hne : to_int ((4 + j : Nat) : Int) ≠ 3 := by
        unfold to_int
        omega
      simp only [_at, comma_at_3, chmatch]
      rw [if_neg (by omega)]
      rfl)
  have hsz : to_size 4 = 4 := by decide
  have hlen : (⟨2 ^ 31, 2 ^ 32 + 4⟩ : stref).len - 4 = 2 ^ 32 - 1 + 1 := by norm_num
  rw [find, hsz, hlen, hs, find_loop]
  have h1 : to_int (((4 + (2 ^ 32 - 1) : Nat)) : Int) = 3 := by decide
  rw [h1]
  rfl

theorem split_loop_forever :
    ∀ fuel, split_loop comma_at_3 (chmatch 44) ⟨2 ^ 31, 2 ^ 32 + 4⟩ fuel 4 3 = none := by
  intro fuel
  induction fuel with
  | zero => rfl
  | succ fuel ih =>
    have h4 : to_int (3 + 1) = 4 := by decide
    rw [split_loop, if_pos (by decide)]
    simp only [h4, find_comma_at_3_from_4, ih]
    rfl

theorem split_forever (fuel : Nat) :
    split comma_at_3 (chmatch 44) ⟨2 ^ 31, 2 ^ 32 + 4⟩ fuel = none := by
  rw [split, find_comma_at_3_from_0]
  rcases fuel with _ | fuel
  · rfl
  · have h4 : to_int (3 + 1) = 4 := by decide
    rw [split_loop, if_pos (by decide)]
    simp only [h4, find_comma_at_3_from_4, split_loop_forever fuel]
    rfl

/-- C22, counterexample. A view of `2^31 + 2` characters, none of which is a comma, split at
commas: `body` is called twice although `k = 0`. And a view of `2^32 + 4` characters, at
address `2^31`, whose character at index `3` is a comma: the search from index `4` finds the comma again at the
`size_t` index `2^32 + 3`, which it returns as the `int` `3`, so the loop of `split` never ends:
no amount of fuel gives a result. -/
theorem split_wrong_count_and_no_termination :
    (((⟨2 ^ 31, 2 ^ 31 + 2⟩ : stref).chars comma_at_1).filter (chmatch 44)).length = 0 ∧
    split comma_at_1 (chmatch 44) ⟨2 ^ 31, 2 ^ 31 + 2⟩ 2
      = some [⟨2 ^ 31, 2 ^ 31 + 2⟩, ⟨2 ^ 31, 0⟩] ∧
    (∀ fuel, split comma_at_3 (chmatch 44) ⟨2 ^ 31, 2 ^ 32 + 4⟩ fuel = none) :=
  ⟨no_comma_in_wrapped_view, split_wrapped_index 0, split_forever⟩

end tools
